import Mathlib

/-!
# Verification of the `spdx-tools` header-management library

A shallow embedding, in Lean 4, of the parts of the `spdx_headers` Python
package that the specification's claims are about:

* the fast header probe `has_spdx_header` and `check_missing_headers`
  (`src/spdx_headers/core.py`, `src/spdx_headers/operations.py`);
* `create_header` and the license-registry entries built by
  `update_license_data` (`core.py`, `data.py`);
* the batch operation `add_header_to_py_files` and the header-removal
  helper `remove_spdx_header` (`operations.py`, `core.py`);
* the license-text wrapper `_wrap_license_text` (`operations.py`), which
  drives Python's `textwrap.TextWrapper`; the relevant fragment of
  `TextWrapper` (the settings used by the source: `break_long_words=False`,
  `break_on_hyphens=False`, custom indents) is embedded as well;
* the `FileProcessor` class.  Its definition is not among the provided
  sources (only its callers in `operations.py`/`cli.py` and its tests
  exist there), so it is modelled from the specification, as marked on
  each of those definitions.

Python text is modelled as `List Char`; a file on disk is modelled by its
text, `Option` marking files whose `open`/`read` raises `OSError`.
-/

set_option autoImplicit false
set_option maxRecDepth 40000

/-- Python text: a string as a list of characters. -/
abbrev Str := List Char

deriving instance DecidableEq for Except

/-- The ASCII whitespace characters recognised by Python's `str.strip`,
`str.split` and the regex class `\s` (the embedding models ASCII text). -/
def isPySpace (c : Char) : Bool :=
  c = ' ' || c = '\t' || c = '\n' || c = '\r' || c = '\x0b' || c = '\x0c'

/-- Python `str.lstrip()`. -/
def pyLstrip (s : Str) : Str := s.dropWhile isPySpace

/-- Python `str.rstrip()`. -/
def pyRstrip (s : Str) : Str := (s.reverse.dropWhile isPySpace).reverse

/-- Python `str.strip()`. -/
def pyStrip (s : Str) : Str := pyRstrip (pyLstrip s)

/-- The literal `SPDX-FileCopyrightText` (core.py line 110). -/
def SPDX_COPYRIGHT : Str := "SPDX-FileCopyrightText".data

/-- The literal `SPDX-License-Identifier` (core.py line 110). -/
def SPDX_LICENSE : Str := "SPDX-License-Identifier".data

/-- A file as seen by an `open`+`read`: `none` when the access raises
`OSError`, otherwise the decoded text. -/
abbrev FileRead := Option Str

/-- Boolean prefix test (Python `str.startswith`). -/
def isPfx : Str → Str → Bool
  | [], _ => true
  | _ :: _, [] => false
  | a :: s, b :: t => a = b && isPfx s t

/-- Boolean substring test (Python's `needle in haystack`). -/
def containsSub (haystack needle : Str) : Bool :=
  match haystack with
  | [] => needle.isEmpty
  | _ :: t => isPfx needle haystack || containsSub t needle

/-- `has_spdx_header` (core.py lines 104-113): read the first 512
characters and test for both SPDX marker substrings; an `OSError` while
opening or reading yields `False`. -/
def has_spdx_header (file : FileRead) : Bool :=
  match file with
  | none => false
  | some content =>
      let probe := content.take 512
      containsSub probe SPDX_COPYRIGHT && containsSub probe SPDX_LICENSE

/-- Identifier-token characters of the detection contract: word
characters, dots, hyphens, plus, slash, colon. -/
def isIdentChar (c : Char) : Bool :=
  c.isAlphanum || c = '_' || c = '.' || c = '-' || c = '+' || c = '/' || c = ':'

/-- Lower-case marker used by the spec-side probe. -/
def specMarker : Str := "spdx-license-identifier:".data

/-- After the marker: optional whitespace, then at least one
identifier-token character. -/
def specAfterMarker (s : Str) : Bool :=
  match s.dropWhile isPySpace with
  | [] => false
  | c :: _ => isIdentChar c

/-- Scan for the marker followed by an identifier token. -/
def specScan : Str → Bool
  | [] => false
  | c :: t =>
      (isPfx specMarker (c :: t) && specAfterMarker ((c :: t).drop specMarker.length))
        || specScan t

/-- Modelled from the spec (detection contract, §6): a file "has a
header" iff a case-insensitive match of `SPDX-License-Identifier:`
followed by an identifier token occurs within the first 2048 bytes.
This is the spec's description, kept separate from `has_spdx_header`
(the code), so the two can be compared. -/
def spec_has_spdx_header (content : Str) : Bool :=
  specScan ((content.take 2048).map Char.toLower)

/-- A directory's files for a batch run: walk order is the key order;
each path maps to the outcome of reading it (`none` = `OSError`). -/
abbrev FS := List (String × FileRead)

/-- Reading a path from the modelled directory. -/
def readFile (fs : FS) (p : String) : FileRead :=
  match fs.lookup p with
  | some c => c
  | none => none

/-- `check_missing_headers` (operations.py lines 140-159): the files,
in walk order, whose probe fails.  (`find_python_files` and the
directory-existence check are directory I/O; the walk's result is the
`files` argument.) -/
def check_missing_headers (fs : FS) (files : List String) : List String :=
  files.filter (fun p => !(has_spdx_header (readFile fs p)))

/-- A file whose only SPDX marker sits at byte offset 2100. -/
def offset2100File : Str :=
  List.replicate 2100 ' ' ++ "SPDX-License-Identifier: MIT\n".data

/-- A file that matches the spec's detection regex at offset 0 but has no
`SPDX-FileCopyrightText` marker. -/
def licenseOnlyFile : Str := "SPDX-License-Identifier: MIT\n".data

/-- One piece of a Python format template: literal text or a named
placeholder.  `str.format` parses the template string into exactly such a
sequence, so the `header_template` string of a registry entry is
represented by its parsed form. -/
inductive TemplatePart
  | lit (s : Str)
  | ph (name : String)
deriving DecidableEq

/-- A license registry entry (data.py `LicenseEntry`). -/
structure LicenseEntry where
  name : Str
  deprecated : Bool
  osi_approved : Bool
  fsf_libre : Bool
  header_template : List TemplatePart
  license_text : Option Str
deriving DecidableEq

/-- The `licenses` mapping of a registry (`license_data["licenses"]`),
modelled as an association list. -/
abbrev LicenseData := List (String × LicenseEntry)

/-- Python `str.format` with keyword arguments: substitute each
placeholder from the context; a placeholder absent from the context
raises `KeyError` (the `Except.error` case, carrying the offending
name). -/
def pyFormat : List TemplatePart → (String → Option Str) → Except String Str
  | [], _ => .ok []
  | .lit s :: rest, ctx => (pyFormat rest ctx).map (fun r => s ++ r)
  | .ph p :: rest, ctx =>
      match ctx p with
      | none => .error p
      | some v => (pyFormat rest ctx).map (fun r => v ++ r)

/-- The keyword arguments passed by `create_header` (core.py lines
249-254): `year`, `name`, `email` and `license_name` (the entry's
display name, stripped). -/
def createHeaderContext (year name email : Str) (entry : LicenseEntry) :
    String → Option Str :=
  fun p =>
    if p = "year" then some year
    else if p = "name" then some name
    else if p = "email" then some email
    else if p = "license_name" then some (pyStrip entry.name)
    else none

/-- `create_header` (core.py lines 236-254): `None` when the key is
absent from the registry, otherwise the entry's header template rendered
with the four context entries.  A `KeyError` escaping `format` is the
`Except.error` case. -/
def create_header (data : LicenseData) (key : String) (year name email : Str) :
    Option (Except String Str) :=
  match data.lookup key with
  | none => none
  | some entry =>
      some (pyFormat entry.header_template (createHeaderContext year name email entry))

/-- The header template installed for every license by
`update_license_data` (data.py line 145): the string
`#\n#\n# ` followed by the `license_name` placeholder and a newline. -/
def update_header_template : List TemplatePart :=
  [.lit "#\n#\n# ".data, .ph "license_name", .lit "\n".data]

/-- Whether any literal text of a template contains the
`SPDX-License-Identifier` token. -/
def templateMentionsLicenseToken (t : List TemplatePart) : Bool :=
  t.any (fun part =>
    match part with
    | .lit s => containsSub s SPDX_LICENSE
    | .ph _ => false)

/-- An `MIT` entry exactly as `update_license_data` builds it
(data.py lines 140-151). -/
def mitEntryFromUpdate : LicenseEntry :=
  { name := "MIT License".data, deprecated := false, osi_approved := true,
    fsf_libre := true, header_template := update_header_template,
    license_text := none }

/-- A registry holding the `update_license_data`-shaped MIT entry. -/
def updateRegistry : LicenseData := [("MIT", mitEntryFromUpdate)]

/-- An entry whose template uses the `license_key` placeholder, the
claim's own example of a placeholder missing from the rendering
context. -/
def keyPlaceholderEntry : LicenseEntry :=
  { name := "Example License".data, deprecated := false, osi_approved := false,
    fsf_libre := false,
    header_template :=
      [.lit "# SPDX-License-Identifier: ".data, .ph "license_key",
        .lit "\n".data],
    license_text := none }

/-- A registry holding `keyPlaceholderEntry` under the key `Example`. -/
def keyPlaceholderRegistry : LicenseData := [("Example", keyPlaceholderEntry)]

/-- The placeholder names the rendering context of `create_header`
defines. -/
def knownPlaceholders : List String := ["year", "name", "email", "license_name"]

/-- Helper of `splitlinesKeepends`: accumulate the current line
(reversed) while walking the text. -/
def splitlinesGo (acc : Str) : Str → List Str
  | [] => if acc.isEmpty then [] else [acc.reverse]
  | c :: t =>
      if c = '\n' then (acc.reverse ++ ['\n']) :: splitlinesGo [] t
      else splitlinesGo (c :: acc) t

/-- Python `str.splitlines(keepends=True)` / `file.readlines()`: split
after each newline, keeping it; a final fragment without a newline is
kept too; the empty string yields no lines.  (Only `\n` breaks are
modelled.) -/
def splitlinesKeepends (s : Str) : List Str := splitlinesGo [] s

/-- `find_similar_licenses` (exceptions.py lines 199-229) delegates to
`difflib.get_close_matches(license_id, available_licenses, n=5,
cutoff=0.6)`; the stdlib matcher is an external collaborator, abstracted
as the `get_close_matches` argument. -/
def find_similar_licenses
    (get_close_matches : String → List String → List String)
    (license_id : String) (available_licenses : List String) : List String :=
  get_close_matches license_id available_licenses

/-- The exceptions `add_header_to_py_files` raises before its file loop:
`LicenseNotFoundError` (with suggestions), `FileProcessingError` for a
missing template, and a `KeyError` escaping `create_header`. -/
inductive AddBatchError
  | licenseNotFound (key : String) (suggestions : List String)
  | noTemplate
  | templateKeyError (p : String)

/-- The per-file edit of `add_header_to_py_files` (operations.py lines
505-517): pop a leading shebang line, then emit the shebang, the
header's lines, and the remaining lines. -/
def add_header_transform (headerLines : List Str) (lines : List Str) :
    List Str :=
  match lines with
  | l :: rest =>
      if isPfx "#!".data l then l :: (headerLines ++ rest)
      else headerLines ++ l :: rest
  | [] => headerLines

/-- Writing a path back to the modelled directory. -/
def writeFile (fs : FS) (p : String) (content : Str) : FS :=
  fs.map (fun entry => if entry.fst = p then (entry.fst, some content) else entry)

/-- What `add_header_to_py_files` produces: the final directory state,
the paths whose files were opened (by the probe or the edit), the
per-file errors collected, and the outcome of the call. -/
structure AddBatchResult where
  fs : FS
  readPaths : List String
  errors : List (String × String)
  outcome : Except AddBatchError Unit

/-- The file loop of `add_header_to_py_files` (operations.py lines
494-532): skip files whose probe succeeds; on a read failure record a
per-file error and continue; otherwise insert the header after any
shebang and write the file back. -/
def addHeaderLoop (headerLines : List Str) :
    List String → FS → List String → List (String × String) →
      FS × List String × List (String × String)
  | [], fs, reads, errs => (fs, reads, errs)
  | p :: rest, fs, reads, errs =>
      let content := readFile fs p
      if has_spdx_header content then
        addHeaderLoop headerLines rest fs (reads ++ [p]) errs
      else
        match content with
        | none =>
            addHeaderLoop headerLines rest fs (reads ++ [p])
              (errs ++ [(p, "OSError")])
        | some c =>
            let newLines := add_header_transform headerLines (splitlinesKeepends c)
            addHeaderLoop headerLines rest (writeFile fs p newLines.flatten)
              (reads ++ [p]) errs

/-- `add_header_to_py_files` (operations.py lines 449-540): validate the
license key (raising `LicenseNotFoundError` with suggestions before any
file is opened), render the header (a missing template or an escaping
`KeyError` also aborts first), then run the file loop.  The difflib
matcher is the `get_close_matches` parameter; encoding detection is
folded into the read outcome. -/
def add_header_to_py_files
    (get_close_matches : String → List String → List String)
    (data : LicenseData) (key : String) (year name email : Str)
    (fs : FS) (files : List String) : AddBatchResult :=
  match data.lookup key with
  | none =>
      { fs := fs, readPaths := [], errors := [],
        outcome := .error (.licenseNotFound key
          (find_similar_licenses get_close_matches key (data.map Prod.fst))) }
  | some _ =>
      match create_header data key year name email with
      | none => { fs := fs, readPaths := [], errors := [], outcome := .error .noTemplate }
      | some (.error p) =>
          { fs := fs, readPaths := [], errors := [],
            outcome := .error (.templateKeyError p) }
      | some (.ok header) =>
          let r := addHeaderLoop (splitlinesKeepends header) files fs [] []
          { fs := r.fst, readPaths := r.snd.fst, errors := r.snd.snd,
            outcome := .ok () }

/-- `remove_spdx_header`'s line loop (core.py lines 152-169), carrying
`skip_until_content` and `found_header`. -/
def removeSpdxGo : List Str → Bool → Bool → List Str × Bool
  | [], _, found => ([], found)
  | line :: rest, skip, found =>
      if containsSub line SPDX_COPYRIGHT || containsSub line SPDX_LICENSE then
        removeSpdxGo rest true true
      else if skip && ((pyStrip line).isEmpty || isPfx "#".data line) then
        removeSpdxGo rest true found
      else
        let r := removeSpdxGo rest false found
        (line :: r.fst, r.snd)

/-- `remove_spdx_header` (core.py lines 145-173): the remaining lines
and whether a header was found; an `OSError` yields `([], False)`. -/
def remove_spdx_header (file : Option (List Str)) : List Str × Bool :=
  match file with
  | none => ([], false)
  | some lines => removeSpdxGo lines false false

/-- A shebang line that also contains an SPDX marker substring. -/
def shebangWithMarker : Str := "#! SPDX-License-Identifier: MIT\n".data

/-- An ordinary copyright marker line. -/
def copyrightLine : Str := "# SPDX-FileCopyrightText: 2025 Example\n".data

/-- A body line. -/
def bodyLine : Str := "body = 1\n".data

/-- A file whose shebang line itself carries an SPDX marker. -/
def shebangMarkerFile : List Str := [shebangWithMarker, copyrightLine, bodyLine]

/-- An ordinary shebang line. -/
def plainShebang : Str := "#!/usr/bin/env python3\n".data

/-- Modelled from the spec: the `FileProcessor` class of
`spdx_headers.core` is imported by `operations.py` and `cli.py` and
exercised by `tests/test_file_processor.py`, but its definition is
missing from the provided sources.  Its state follows the spec's
ParsedFile data model (§3): optional shebang line, header lines, body
lines, `loaded` and `modified` flags. -/
structure FileProcessor where
  shebang : Option Str
  header : List Str
  content : List Str
  loaded : Bool
  modified : Bool

/-- Modelled from the spec (§4.1): `add_header(text)` replaces the
header buffer with the line-split form of `text` and sets `modified`.
The implicit `load()` is a no-op on a loaded processor, and the claims
quantify over loaded processors. -/
def FileProcessor.add_header (p : FileProcessor) (text : Str) : FileProcessor :=
  { p with header := splitlinesKeepends text, modified := true }

/-- Modelled from the spec (§4.1): `has_header()` is true iff the
header buffer is non-empty. -/
def FileProcessor.has_header (p : FileProcessor) : Bool := !p.header.isEmpty

/-- Modelled from the spec (§4.1): `get_content()` is the concatenation
of shebang + header + body. -/
def FileProcessor.get_content (p : FileProcessor) : Str :=
  (p.shebang.getD []) ++ p.header.flatten ++ p.content.flatten

/-- The steps of `save()` that can raise: writing the fresh temporary
file, copying the original's permission bits onto it, and the atomic
rename. -/
inductive SaveStep
  | writeTemp
  | copyPermissions
  | rename
deriving DecidableEq

/-- The on-disk state relevant to one `save()` call: the target path's
content (when the file exists) and the sibling temporary file's content
(when present).  Permission bits are not tracked; copying them is a
step that can fail. -/
structure DiskFile where
  target : Option Str
  temp : Option Str
deriving DecidableEq

/-- Modelled from the spec (§4.1): `save(force)` is a no-op unless
loaded and (modified or forced); otherwise it writes shebang + header +
body to a fresh sibling temporary file, copies the original's
permission bits onto it, and atomically renames it over the target; on
an exception at any step the temporary file is deleted (best effort)
and the exception is re-raised; on success `modified` is cleared.
`failAt` injects a failure at the given step. -/
def FileProcessor.save (p : FileProcessor) (d : DiskFile) (force : Bool)
    (failAt : Option SaveStep) :
    FileProcessor × DiskFile × Except SaveStep Unit :=
  if !p.loaded then (p, d, .ok ())
  else if !p.modified && !force then (p, d, .ok ())
  else
    let out := p.get_content
    if failAt = some .writeTemp then
      (p, { d with temp := none }, .error .writeTemp)
    else
      let d1 := { d with temp := some out }
      if failAt = some .copyPermissions then
        (p, { d1 with temp := none }, .error .copyPermissions)
      else if failAt = some .rename then
        (p, { d1 with temp := none }, .error .rename)
      else
        ({ p with modified := false },
          { target := some out, temp := none }, .ok ())

/-- A loaded, modified processor over a one-line body. -/
def sampleProcessor : FileProcessor :=
  { shebang := none, header := [], content := ["x = 1\n".data],
    loaded := true, modified := true }

/-- A small header text ending in a blank line. -/
def sampleHeaderText : Str :=
  "# SPDX-FileCopyrightText: 2025 Jane Doe <jane@example.com>\n# SPDX-License-Identifier: MIT\n\n".data

/-- Normalize CRLF to LF (operations.py line 119,
`text.replace("\r\n", "\n")`). -/
def normCRLF : Str → Str
  | [] => []
  | [c] => [c]
  | c :: d :: t =>
      if c = '\r' && d = '\n' then '\n' :: normCRLF t
      else c :: normCRLF (d :: t)

/-- Python `text.split("\n")` (keeps empty segments; the empty text
yields one empty segment). -/
def splitNl : Str → List Str
  | [] => [[]]
  | c :: t =>
      if c = '\n' then [] :: splitNl t
      else
        match splitNl t with
        | [] => [[c]]
        | l :: ls => (c :: l) :: ls

/-- `sep.join(lines)` for a one-character separator. -/
def joinSep (sep : Char) : List Str → Str
  | [] => []
  | [l] => l
  | l :: ls => l ++ sep :: joinSep sep ls

/-- Python `text.endswith("\n")`. -/
def endsNl (s : Str) : Bool := decide (s.getLast? = some '\n')

/-- Python `str.expandtabs(8)`: each tab becomes spaces up to the next
multiple-of-8 column; newlines and carriage returns reset the column. -/
def expandTabsGo : Str → Nat → Str
  | [], _ => []
  | c :: t, col =>
      if c = '\t' then
        List.replicate (8 - col % 8) ' ' ++ expandTabsGo t (col + (8 - col % 8))
      else if c = '\n' || c = '\r' then c :: expandTabsGo t 0
      else c :: expandTabsGo t (col + 1)

/-- `TextWrapper._munge_whitespace` under the defaults `_wrap_license_text`
uses (`expand_tabs=True`, `replace_whitespace=True`): expand tabs, then
map each remaining whitespace character to a space. -/
def mungeWhitespace (s : Str) : Str :=
  (expandTabsGo s 0).map (fun c => if isPySpace c then ' ' else c)

/-- Helper of `splitChunks`: `kind` is the whitespace-kind of the run
being collected, `cur` its characters so far, reversed. -/
def splitChunksGo (kind : Bool) (cur : Str) : Str → List Str
  | [] => [cur.reverse]
  | c :: t =>
      if isPySpace c = kind then splitChunksGo kind (c :: cur) t
      else cur.reverse :: splitChunksGo (isPySpace c) [c] t

/-- `TextWrapper._split` with `break_on_hyphens=False`
(`wordsep_simple_re`, split on whitespace runs, empties dropped): the
maximal runs of whitespace and of non-whitespace, in order. -/
def splitChunks : Str → List Str
  | [] => []
  | c :: t => splitChunksGo (isPySpace c) [c] t

/-- Whether a chunk is a word (non-whitespace) chunk. -/
def isWordChunk (ch : Str) : Bool :=
  match ch with
  | [] => false
  | c :: _ => !isPySpace c

/-- `_wrap_chunks`: drop a leading whitespace chunk at the start of a
line once some line was emitted (`drop_whitespace=True`). -/
def dropLeadingWsChunk (emitted : Bool) (chunks : List Str) : List Str :=
  match chunks with
  | ch :: rest => if emitted && (pyStrip ch).isEmpty then rest else chunks
  | [] => []

/-- `_wrap_chunks`' inner loop: greedily take chunks while the current
line stays within the width left after the indent. -/
def takeFits (widthI : Int) (curLen : Nat) : List Str → List Str × List Str
  | [] => ([], [])
  | ch :: rest =>
      if (curLen + ch.length : Int) ≤ widthI then
        let r := takeFits widthI (curLen + ch.length) rest
        (ch :: r.fst, r.snd)
      else ([], ch :: rest)

/-- `_wrap_chunks`: drop a trailing whitespace chunk before emitting the
line (`drop_whitespace=True`). -/
def dropTrailingWsChunk (cur : List Str) : List Str :=
  match cur.getLast? with
  | some ch => if (pyStrip ch).isEmpty then cur.dropLast else cur
  | none => []

/-- The line-filling part of one `_wrap_chunks` iteration: greedily take
fitting chunks; when the next chunk is longer than the available width
and the line is still empty, put it whole onto the line
(`break_long_words=False`, `_handle_long_word`). -/
def wrapCollect (widthI : Int) (chunks1 : List Str) : List Str × List Str :=
  match takeFits widthI 0 chunks1 with
  | (cur, c :: rtl) =>
      if widthI < (c.length : Int) && cur.isEmpty then (cur ++ [c], rtl)
      else (cur, c :: rtl)
  | (cur, []) => (cur, [])

/-- The line-emitting part of one `_wrap_chunks` iteration: drop a
trailing whitespace chunk and emit the indented line when non-empty. -/
def wrapEmit (indent : Str) (step : List Str × List Str) :
    Option Str × List Str :=
  (if (dropTrailingWsChunk step.fst).isEmpty then none
   else some (indent ++ (dropTrailingWsChunk step.fst).flatten), step.snd)

/-- One iteration of `TextWrapper._wrap_chunks`' outer loop with
`break_long_words=False`: select the indent, drop a leading whitespace
chunk, fill the line, and emit it; the result is the emitted line (when
non-empty) and the remaining chunks. -/
def wrapStep (w : Nat) (ii si : Str) (chunks : List Str) (emitted : Bool) :
    Option Str × List Str :=
  wrapEmit (if emitted then si else ii)
    (wrapCollect ((w : Int) - (if emitted then si else ii).length)
      (dropLeadingWsChunk emitted chunks))

/-- `TextWrapper._wrap_chunks`' outer loop, fuel-indexed: `emitted` says
whether a line was already emitted.  One more than the chunk count is
always enough fuel. -/
def wrapGo (w : Nat) (ii si : Str) : Nat → List Str → Bool → List Str
  | 0, _, _ => []
  | _ + 1, [], _ => []
  | fuel + 1, ch :: cr, emitted =>
      let s := wrapStep w ii si (ch :: cr) emitted
      match s.fst with
      | none => wrapGo w ii si fuel s.snd emitted
      | some line => line :: wrapGo w ii si fuel s.snd true

/-- `_wrap_chunks` over a chunk list. -/
def wrapChunksAll (w : Nat) (ii si : Str) (chunks : List Str) : List Str :=
  wrapGo w ii si (chunks.length + 1) chunks false

/-- The `ValueError` `_wrap_chunks` raises for a non-positive width. -/
inductive WrapError
  | invalidWidth
deriving DecidableEq

/-- `textwrap.TextWrapper(width=w, break_long_words=False,
break_on_hyphens=False, initial_indent=ii, subsequent_indent=si)
.wrap(text)`. -/
def textwrapWrap (w : Nat) (ii si : Str) (text : Str) :
    Except WrapError (List Str) :=
  if w = 0 then .error .invalidWidth
  else .ok (wrapChunksAll w ii si (splitChunks (mungeWhitespace text)))

/-- `_BULLET_PATTERN` (operations.py line 78): a bullet (`-`, `*`, `•`)
or digits-plus-dot marker followed by at least one whitespace character;
the result is group 1, the marker with its whitespace run. -/
def bulletMatch (s : Str) : Option Str :=
  match s with
  | [] => none
  | c :: rest =>
      if c = '-' || c = '*' || c = '•' then
        let ws := rest.takeWhile isPySpace
        if ws.isEmpty then none else some (c :: ws)
      else if c.isDigit then
        match rest.dropWhile Char.isDigit with
        | '.' :: rest2 =>
            let ws := rest2.takeWhile isPySpace
            if ws.isEmpty then none
            else some (c :: rest.takeWhile Char.isDigit ++ '.' :: ws)
        | _ => none
      else none

/-- `flush_paragraph` (operations.py lines 85-117): take the first
line's leading whitespace as the indent, join the stripped lines with
single spaces, treat a bullet or numbered-list marker specially, and
wrap.  (`wrapper.fill(...).splitlines()` equals `wrapper.wrap(...)`
here, the wrapped lines being newline-free.) -/
def flush_paragraph (w : Nat) (buffer : List Str) :
    Except WrapError (List Str) :=
  match buffer with
  | [] => .ok []
  | first :: _ =>
      let indent := first.takeWhile isPySpace
      let paragraphText := joinSep ' ' (buffer.map pyStrip)
      match bulletMatch (first.drop indent.length) with
      | some b =>
          let bulletPrefix := indent ++ b
          let ptext := pyLstrip (paragraphText.drop b.length)
          if ptext.isEmpty then .ok [pyRstrip bulletPrefix]
          else
            textwrapWrap w bulletPrefix (indent ++ List.replicate b.length ' ')
              ptext
      | none => textwrapWrap w indent indent paragraphText

/-- The line walk of `_wrap_license_text` (operations.py lines 119-132):
accumulate non-blank lines into the paragraph buffer; on a blank line
flush the buffer and emit the blank line verbatim; at the end flush the
remaining buffer. -/
def wrapWalk (w : Nat) (para : List Str) :
    List Str → Except WrapError (List Str)
  | [] => flush_paragraph w para
  | line :: rest =>
      if (pyStrip line).isEmpty then
        match flush_paragraph w para with
        | .error e => .error e
        | .ok fl =>
            match wrapWalk w [] rest with
            | .error e => .error e
            | .ok ws => .ok (fl ++ ([] : Str) :: ws)
      else wrapWalk w (para ++ [line]) rest

/-- The wrapped lines of `_wrap_license_text`, before joining. -/
def wrap_license_lines (text : Str) (w : Nat) :
    Except WrapError (List Str) :=
  wrapWalk w [] (splitNl (normCRLF text))

/-- `_wrap_license_text` (operations.py lines 81-137): wrap, join with
newlines, and append a trailing newline when the input had one and the
joined result lacks it. -/
def wrap_license_text (text : Str) (w : Nat) : Except WrapError Str :=
  (wrap_license_lines text w).map (fun ls =>
    let result := joinSep '\n' ls
    if endsNl text && !endsNl result then result ++ ['\n'] else result)

/-- The maximal non-whitespace runs (words) of a text, in order. -/
def wordsOf (s : Str) : List Str := (splitChunks s).filter isWordChunk

/-- Thirty `a`s: a single unbreakable word wider than 20 columns. -/
def longWord : Str := List.replicate 30 'a'

/-- Two paragraphs separated by exactly one blank line, the first a
single 30-character word. -/
def longWordTwoParas : Str := longWord ++ '\n' :: '\n' :: "bb".data

/-- An input whose last line is whitespace-only but has no final
newline. -/
def trailingBlankNoNl : Str := "a\n ".data

/-- Well-formedness of a chunk list as `splitChunks` produces it: each
chunk is a non-empty uniform run, and adjacent chunks alternate between
whitespace runs and word runs. -/
def WFChunks (chunks : List Str) : Prop :=
  (∀ ch ∈ chunks, ch ≠ [] ∧ ∃ b, ∀ c ∈ ch, isPySpace c = b) ∧
    List.Chain' (fun a b => isWordChunk a ≠ isWordChunk b) chunks

/- ===================== theorems ===================== -/

theorem isPfx_iff : ∀ n s : Str, isPfx n s = true ↔ n <+: s
  | [], s => by
      show true = true ↔ [] <+: s
      simp
  | a :: n, [] => by
      show false = true ↔ a :: n <+: []
      simp
  | a :: n, b :: s => by
      show (decide (a = b) && isPfx n s) = true ↔ a :: n <+: b :: s
      simp [List.cons_prefix_cons, isPfx_iff n s]

theorem containsSub_iff : ∀ h n : Str, containsSub h n = true ↔ n <:+: h
  | [], n => by
      show n.isEmpty = true ↔ n <:+: []
      simp [ List.infix_nil, List.isEmpty_iff]
  | c :: t, n => by
      show (isPfx n (c :: t) || containsSub t n) = true ↔ n <:+: c :: t
      simp [ List.infix_cons_iff, isPfx_iff, containsSub_iff t n]

/-- C3 (counterexample).  The claim says `has_spdx_header` is true iff a
case-insensitive `SPDX-License-Identifier:` match occurs in the probe
window.  A file whose whole content is `SPDX-License-Identifier: MIT`
satisfies that regex at offset 0, yet `has_spdx_header` returns false,
because the code additionally requires the `SPDX-FileCopyrightText`
substring. -/
theorem spec_probe_and_code_probe_disagree :
    spec_has_spdx_header licenseOnlyFile = true ∧
      has_spdx_header (some licenseOnlyFile) = false := by
  constructor
  · decide
  · decide

/-- C3 (amended).  `has_spdx_header` returns true iff both the
`SPDX-FileCopyrightText` and the `SPDX-License-Identifier` substrings
occur, case-sensitively, within the first 512 characters of the file;
in particular a file whose only marker sits at byte offset 2100 is
reported as not having a header. -/
theorem has_spdx_header_iff_both_markers_in_512 :
    (∀ content : Str,
        has_spdx_header (some content) = true ↔
          (SPDX_COPYRIGHT <:+: content.take 512 ∧
            SPDX_LICENSE <:+: content.take 512)) ∧
      has_spdx_header (some offset2100File) = false := by
  constructor
  · intro content
    show (containsSub (content.take 512) SPDX_COPYRIGHT &&
        containsSub (content.take 512) SPDX_LICENSE) = true ↔ _
    simp [containsSub_iff]
  · decide

/-- C10.  A file whose open/read raises `OSError` is reported by
`has_spdx_header` as having no header (no error propagates), so
`check_missing_headers` lists it among the files missing headers. -/
theorem unreadable_file_counted_as_missing (fs : FS) (files : List String)
    (p : String) (hmem : p ∈ files) (hread : readFile fs p = none) :
    has_spdx_header (readFile fs p) = false ∧
      p ∈ check_missing_headers fs files := by
  refine ⟨by rw [hread]; rfl, ?_⟩
  unfold check_missing_headers
  exact List.mem_filter.mpr ⟨hmem, by rw [hread]; rfl⟩

/-- Witness for `unreadable_file_counted_as_missing` at a concrete
one-file directory. -/
theorem unreadable_file_counted_as_missing_witness :
    has_spdx_header (readFile [("a.py", none)] "a.py") = false ∧
      "a.py" ∈ check_missing_headers [("a.py", none)] ["a.py"] :=
  unreadable_file_counted_as_missing [("a.py", none)] ["a.py"] "a.py"
    (by decide) (by decide)

/-- C2 (counterexample).  The claim promises the two SPDX comment lines
whenever the registry template does not embed an
`SPDX-License-Identifier` token.  The template installed by
`update_license_data` embeds no such token, yet `create_header` returns
the bare rendered template, which contains neither SPDX marker. -/
theorem create_header_not_two_line_header :
    templateMentionsLicenseToken update_header_template = false ∧
      create_header updateRegistry "MIT" "2025".data "Jane Doe".data
          "jane@example.com".data
        = some (.ok "#\n#\n# MIT License\n".data) ∧
      containsSub "#\n#\n# MIT License\n".data SPDX_LICENSE = false ∧
      containsSub "#\n#\n# MIT License\n".data SPDX_COPYRIGHT = false := by
  exact ⟨by decide, by rfl, by decide, by decide⟩

/-- C2 (amended).  `create_header` returns the registry template
rendered with the year/name/email/license_name substitutions, verbatim:
it synthesizes no two-line header and normalizes no trailing blank
lines.  For an entry of the shape installed by `update_license_data` the
result is `#\n#\n# ` ++ the stripped display name ++ a newline,
independent of the year, name and email arguments. -/
theorem create_header_renders_template_verbatim
    (key : String) (nm : Str) (dep osi fsf : Bool) (txt : Option Str)
    (rest : LicenseData) (year name email : Str) :
    create_header ((key, ⟨nm, dep, osi, fsf, update_header_template, txt⟩) :: rest)
        key year name email
      = some (.ok ("#\n#\n# ".data ++ pyStrip nm ++ "\n".data)) := by
  simp [create_header, List.lookup, pyFormat, update_header_template,
    createHeaderContext, Except.map]

/-- C4 (counterexample).  The claim says a template placeholder missing
from the rendering context degrades to a minimal two-line fallback
header.  In the code the `KeyError` escapes `create_header` instead:
on a template using the `license_key` placeholder the result is the
propagating error, not a fallback header. -/
theorem create_header_key_error_no_fallback :
    create_header keyPlaceholderRegistry "Example" "2025".data
        "Jane Doe".data "jane@example.com".data
      = some (.error "license_key") := by
  rfl

theorem createHeaderContext_eq_none_iff (year name email : Str)
    (entry : LicenseEntry) (p : String) :
    createHeaderContext year name email entry p = none ↔
      p ∉ knownPlaceholders := by
  unfold createHeaderContext knownPlaceholders
  by_cases h1 : p = "year" <;> by_cases h2 : p = "name" <;>
    by_cases h3 : p = "email" <;> by_cases h4 : p = "license_name" <;>
    simp [h1, h2, h3, h4]

theorem pyFormat_ok_of_total :
    ∀ (t : List TemplatePart) (ctx : String → Option Str),
      (∀ p, TemplatePart.ph p ∈ t → (ctx p).isSome) →
      ∃ s, pyFormat t ctx = .ok s
  | [], _, _ => ⟨[], rfl⟩
  | .lit s :: rest, ctx, h => by
      obtain ⟨r, hr⟩ := pyFormat_ok_of_total rest ctx
        (fun p hp => h p (List.mem_cons_of_mem _ hp))
      exact ⟨s ++ r, by simp only [pyFormat, hr, Except.map]⟩
  | .ph p :: rest, ctx, h => by
      obtain ⟨v, hv⟩ := Option.isSome_iff_exists.mp (h p (by simp))
      obtain ⟨r, hr⟩ := pyFormat_ok_of_total rest ctx
        (fun q hq => h q (List.mem_cons_of_mem _ hq))
      exact ⟨v ++ r, by simp only [pyFormat, hv, hr, Except.map]⟩

theorem pyFormat_error_ctx_none :
    ∀ (t : List TemplatePart) (ctx : String → Option Str) (q : String),
      pyFormat t ctx = .error q → ctx q = none
  | [], ctx, q, h => by simp [pyFormat] at h
  | .lit s :: rest, ctx, q, h => by
      simp only [pyFormat] at h
      cases hr : pyFormat rest ctx with
      | ok r => rw [hr] at h; simp [Except.map] at h
      | error e =>
          rw [hr] at h
          have he : e = q := by simpa [Except.map] using h
          exact he ▸ pyFormat_error_ctx_none rest ctx e hr
  | .ph p :: rest, ctx, q, h => by
      simp only [pyFormat] at h
      cases hp : ctx p with
      | none =>
          rw [hp] at h
          have he : p = q := by simpa using h
          exact he ▸ hp
      | some v =>
          rw [hp] at h
          cases hr : pyFormat rest ctx with
          | ok r => rw [hr] at h; simp [Except.map] at h
          | error e =>
              rw [hr] at h
              have he : e = q := by simpa [Except.map] using h
              exact he ▸ pyFormat_error_ctx_none rest ctx e hr

theorem pyFormat_error_of_missing :
    ∀ (t : List TemplatePart) (ctx : String → Option Str),
      (∃ p, TemplatePart.ph p ∈ t ∧ ctx p = none) →
      ∃ q, pyFormat t ctx = .error q
  | [], _, ⟨p, hp, _⟩ => absurd hp (by simp)
  | .lit s :: rest, ctx, ⟨p, hp, hc⟩ => by
      have hp' : TemplatePart.ph p ∈ rest := by
        rcases List.mem_cons.mp hp with h | h
        · cases h
        · exact h
      obtain ⟨q, hq⟩ := pyFormat_error_of_missing rest ctx ⟨p, hp', hc⟩
      exact ⟨q, by simp only [pyFormat, hq, Except.map]⟩
  | .ph p' :: rest, ctx, ⟨p, hp, hc⟩ => by
      cases hcp : ctx p' with
      | none => exact ⟨p', by simp only [pyFormat, hcp]⟩
      | some v =>
          have hp' : TemplatePart.ph p ∈ rest := by
            rcases List.mem_cons.mp hp with h | h
            · injection h with he; subst he; rw [hc] at hcp; cases hcp
            · exact h
          obtain ⟨q, hq⟩ := pyFormat_error_of_missing rest ctx ⟨p, hp', hc⟩
          exact ⟨q, by simp only [pyFormat, hcp, hq, Except.map]⟩

/-- C4 (amended).  Template substitution is defined exactly for the four
placeholders year, name, email and license_name: a template using only
those renders successfully, while a template mentioning any other
placeholder (such as `license_key`) makes `create_header` raise a
`KeyError` carrying an unknown placeholder name, which propagates. -/
theorem create_header_placeholder_support
    (data : LicenseData) (key : String) (entry : LicenseEntry)
    (year name email : Str) (hk : data.lookup key = some entry) :
    ((∀ p, TemplatePart.ph p ∈ entry.header_template → p ∈ knownPlaceholders) →
        ∃ s, create_header data key year name email = some (.ok s)) ∧
      ((∃ p, TemplatePart.ph p ∈ entry.header_template ∧ p ∉ knownPlaceholders) →
        ∃ q, q ∉ knownPlaceholders ∧
          create_header data key year name email = some (.error q)) := by
  constructor
  · intro hall
    obtain ⟨s, hs⟩ := pyFormat_ok_of_total entry.header_template
      (createHeaderContext year name email entry)
      (fun p hp =>
        Option.ne_none_iff_isSome.mp (fun hn =>
          ((createHeaderContext_eq_none_iff year name email entry p).mp hn)
            (hall p hp)))
    exact ⟨s, by simp [create_header, hk, hs]⟩
  · rintro ⟨p, hp, hnk⟩
    obtain ⟨q, hq⟩ := pyFormat_error_of_missing entry.header_template
      (createHeaderContext year name email entry)
      ⟨p, hp, (createHeaderContext_eq_none_iff year name email entry p).mpr hnk⟩
    refine ⟨q, ?_, ?_⟩
    · exact (createHeaderContext_eq_none_iff year name email entry q).mp
        (pyFormat_error_ctx_none _ _ _ hq)
    · simp [create_header, hk, hq]

/-- Witness for `create_header_placeholder_support`: the hypotheses are
discharged at the `keyPlaceholderRegistry`, exercising the error arm. -/
theorem create_header_placeholder_support_witness :
    ∃ q, q ∉ knownPlaceholders ∧
      create_header keyPlaceholderRegistry "Example" "2025".data "J".data
          "j".data
        = some (.error q) :=
  (create_header_placeholder_support keyPlaceholderRegistry "Example"
      keyPlaceholderEntry "2025".data "J".data "j".data (by decide)).2
    ⟨"license_key", by decide, by decide⟩

/-- C5.  For a license identifier absent from the registry, the batch
add fails before reading or modifying any file: the directory state is
unchanged, no path was opened, and the raised `LicenseNotFoundError`
carries the closest-match suggestions computed (by
`find_similar_licenses`) from the registry's key set. -/
theorem add_header_unknown_license_fails_before_io
    (get_close_matches : String → List String → List String)
    (data : LicenseData) (key : String) (year name email : Str)
    (fs : FS) (files : List String) (hk : data.lookup key = none) :
    add_header_to_py_files get_close_matches data key year name email fs files
      = { fs := fs, readPaths := [], errors := [],
          outcome := .error (.licenseNotFound key
            (find_similar_licenses get_close_matches key
              (data.map Prod.fst))) } := by
  simp [add_header_to_py_files, hk]

/-- Witness for `add_header_unknown_license_fails_before_io`: the key
`MTI` is absent from the one-entry registry. -/
theorem add_header_unknown_license_fails_before_io_witness :
    add_header_to_py_files (fun _ avail => avail) updateRegistry "MTI"
        "2025".data "Jane Doe".data "jane@example.com".data
        [("a.py", some "x = 1\n".data)] ["a.py"]
      = { fs := [("a.py", some "x = 1\n".data)], readPaths := [], errors := [],
          outcome := .error (.licenseNotFound "MTI"
            (find_similar_licenses (fun _ avail => avail) "MTI" ["MIT"])) } :=
  add_header_unknown_license_fails_before_io (fun _ avail => avail)
    updateRegistry "MTI" "2025".data "Jane Doe".data "jane@example.com".data
    [("a.py", some "x = 1\n".data)] ["a.py"] (by decide)

/-- C7 (counterexample).  For a file whose first line matches the shebang
pattern but itself contains an SPDX marker, the header-removing
operation does not leave the first line unchanged: the probe gate is
true (so the batch remove processes the file), yet `remove_spdx_header`
drops the shebang line itself. -/
theorem remove_header_drops_marker_shebang :
    isPfx "#!".data shebangWithMarker = true ∧
      has_spdx_header (some shebangMarkerFile.flatten) = true ∧
      (remove_spdx_header (some shebangMarkerFile)).fst = [bodyLine] ∧
      ¬((remove_spdx_header (some shebangMarkerFile)).fst.head?
          = some shebangWithMarker) := by
  exact ⟨by decide, by decide, by decide, by decide⟩

/-- C7 (amended).  The header-adding edit preserves a leading shebang
line unconditionally; the header-removing edit preserves it provided the
shebang line itself contains no SPDX marker substring. -/
theorem shebang_first_line_preserved
    (headerLines : List Str) (l : Str) (rest : List Str)
    (hshebang : isPfx "#!".data l = true) :
    (add_header_transform headerLines (l :: rest)).head? = some l ∧
      ((containsSub l SPDX_COPYRIGHT || containsSub l SPDX_LICENSE) = false →
        (remove_spdx_header (some (l :: rest))).fst.head? = some l) := by
  constructor
  · simp [add_header_transform, hshebang]
  · intro hnomarker
    show (removeSpdxGo (l :: rest) false false).fst.head? = some l
    simp [removeSpdxGo, hnomarker]

/-- Witness for `shebang_first_line_preserved` at an ordinary shebang. -/
theorem shebang_first_line_preserved_witness :
    (add_header_transform [copyrightLine] (plainShebang :: [bodyLine])).head?
        = some plainShebang ∧
      (remove_spdx_header (some (plainShebang :: [bodyLine]))).fst.head?
        = some plainShebang :=
  let h := shebang_first_line_preserved [copyrightLine] plainShebang [bodyLine]
    (by decide)
  ⟨h.1, h.2 (by decide)⟩

theorem splitlinesGo_ne_nil :
    ∀ (s acc : Str), acc ≠ [] ∨ s ≠ [] → splitlinesGo acc s ≠ []
  | [], acc, h => by
      have hacc : acc ≠ [] := h.resolve_right (fun hs => hs rfl)
      show (if acc.isEmpty then [] else [acc.reverse]) ≠ []
      simp [List.isEmpty_iff, hacc]
  | c :: t, acc, _ => by
      show (if c = '\n' then (acc.reverse ++ ['\n']) :: splitlinesGo [] t
            else splitlinesGo (c :: acc) t) ≠ []
      by_cases hc : c = '\n'
      · simp [hc]
      · simpa [hc] using splitlinesGo_ne_nil t (c :: acc) (Or.inl (by simp))

theorem splitlinesKeepends_ne_nil (s : Str) (h : s ≠ []) :
    splitlinesKeepends s ≠ [] :=
  splitlinesGo_ne_nil s [] (Or.inr h)

/-- C1.  For a loaded, modified `FileProcessor`, a failure injected at
any step of `save()` leaves the in-memory state untouched (so it is
still modified), deletes the freshly created temporary file, re-raises
the original exception, and leaves the on-disk target exactly as it was
before the call. -/
theorem save_failure_leaves_target_and_state
    (p : FileProcessor) (d : DiskFile) (step : SaveStep)
    (hl : p.loaded = true) (hm : p.modified = true) :
    p.save d false (some step)
      = (p, { target := d.target, temp := none }, .error step) := by
  cases step <;> simp [FileProcessor.save, hl, hm]

/-- Witness for `save_failure_leaves_target_and_state`: a rename failure
over an existing target. -/
theorem save_failure_leaves_target_and_state_witness :
    sampleProcessor.save { target := some "old\n".data, temp := none } false
        (some .rename)
      = (sampleProcessor, { target := some "old\n".data, temp := none },
          .error .rename) :=
  save_failure_leaves_target_and_state sampleProcessor
    { target := some "old\n".data, temp := none } .rename rfl rfl

/-- C6 (counterexample).  With the empty header text, the line-split
form is empty, so after `add_header("")` the processor has
`has_header() = false`, contrary to the claim's "has_header() is true
after either" for every header text. -/
theorem add_header_empty_text_has_no_header :
    sampleProcessor.loaded = true ∧
      (sampleProcessor.add_header []).has_header = false := by
  exact ⟨rfl, rfl⟩

/-- C6 (amended).  For a loaded processor and a non-empty header text
`H`, `add_header H` twice equals `add_header H` once (same state, hence
same header buffer and same `get_content`), `has_header()` is true
afterwards, the header buffer is the line-split form of `H`, and the
modified flag is set. -/
theorem add_header_idempotent (p : FileProcessor) (H : Str)
    (_hl : p.loaded = true) (hH : H ≠ []) :
    (p.add_header H).add_header H = p.add_header H ∧
      (p.add_header H).has_header = true ∧
      ((p.add_header H).add_header H).get_content
        = (p.add_header H).get_content ∧
      (p.add_header H).header = splitlinesKeepends H ∧
      (p.add_header H).modified = true := by
  refine ⟨rfl, ?_, rfl, rfl, rfl⟩
  show (!(splitlinesKeepends H).isEmpty) = true
  rw [List.isEmpty_eq_false.mpr (splitlinesKeepends_ne_nil H hH)]
  rfl

/-- Witness for `add_header_idempotent` at a concrete processor and
header text. -/
theorem add_header_idempotent_witness :
    (sampleProcessor.add_header sampleHeaderText).add_header sampleHeaderText
        = sampleProcessor.add_header sampleHeaderText ∧
      (sampleProcessor.add_header sampleHeaderText).has_header = true ∧
      ((sampleProcessor.add_header sampleHeaderText).add_header
            sampleHeaderText).get_content
        = (sampleProcessor.add_header sampleHeaderText).get_content ∧
      (sampleProcessor.add_header sampleHeaderText).header
        = splitlinesKeepends sampleHeaderText ∧
      (sampleProcessor.add_header sampleHeaderText).modified = true :=
  add_header_idempotent sampleProcessor sampleHeaderText rfl (by decide)

/-- C9 (counterexample).  `'a\n '` does not end with a newline, yet its
wrapped output is `'a\n'`: the whitespace-only final line is emitted as
the blank line `''`, so the joined output ends with a newline although
the input did not. -/
theorem wrap_trailing_newline_not_iff :
    endsNl trailingBlankNoNl = false ∧
      wrap_license_text trailingBlankNoNl 79 = .ok "a\n".data ∧
      endsNl "a\n".data = true := by
  exact ⟨by decide, by rfl, by decide⟩

theorem endsNl_append_nl (r : Str) : endsNl (r ++ ['\n']) = true := by
  simp [endsNl, List.getLast?_append]

/-- C9 (amended).  If the input text ends with a newline, the
(successfully) wrapped output ends with a newline too; the converse
direction of the claim fails (see the counterexample). -/
theorem wrap_preserves_trailing_newline (text : Str) (w : Nat) (out : Str)
    (hok : wrap_license_text text w = .ok out) (hnl : endsNl text = true) :
    endsNl out = true := by
  unfold wrap_license_text at hok
  cases hls : wrap_license_lines text w with
  | error e => rw [hls] at hok; cases hok
  | ok ls =>
      rw [hls] at hok
      simp only [Except.map, hnl, Bool.true_and] at hok
      cases hok
      by_cases h2 : endsNl (joinSep '\n' ls) = true
      · simp [h2]
      · simp only [Bool.not_eq_true] at h2
        simp [h2, endsNl_append_nl]

/-- Witness for `wrap_preserves_trailing_newline` at `'x\n'`. -/
theorem wrap_preserves_trailing_newline_witness :
    endsNl "x\n".data = true :=
  wrap_preserves_trailing_newline "x\n".data 79 "x\n".data (by rfl) (by decide)

/-- C8 (counterexample).  A two-paragraph input whose first paragraph is
a single 30-character word, wrapped at width 20: with
`break_long_words=False` the word goes whole onto its own line, so an
output line is longer than the configured width, refuting the claim's
"no output line longer than the configured width". -/
theorem wrap_long_word_exceeds_width :
    wrap_license_lines longWordTwoParas 20 = .ok [longWord, [], "bb".data] ∧
      20 < longWord.length := by
  exact ⟨by decide, by decide⟩

theorem splitChunksGo_eq (k : Bool) :
    ∀ (s cur : Str), splitChunksGo k cur s
      = (cur.reverse ++ s.takeWhile (fun d => isPySpace d = k)) ::
          splitChunks (s.dropWhile (fun d => isPySpace d = k))
  | [], cur => by simp [splitChunksGo, splitChunks]
  | c :: t, cur => by
      simp only [splitChunksGo]
      by_cases hc : isPySpace c = k
      · rw [if_pos hc, splitChunksGo_eq k t (c :: cur)]
        simp [List.takeWhile_cons, List.dropWhile_cons, hc]
      · rw [if_neg hc]
        simp [splitChunks, List.takeWhile_cons, List.dropWhile_cons, hc]

theorem splitChunks_cons (c : Char) (t : Str) :
    splitChunks (c :: t)
      = (c :: t.takeWhile (fun d => isPySpace d = isPySpace c)) ::
          splitChunks (t.dropWhile (fun d => isPySpace d = isPySpace c)) := by
  show splitChunksGo (isPySpace c) [c] t = _
  rw [splitChunksGo_eq]
  rfl

theorem samekind_pred_of_space {c : Char} (hc : isPySpace c = true) :
    (fun d => decide (isPySpace d = isPySpace c)) = isPySpace := by
  funext d
  rw [hc]
  cases isPySpace d <;> rfl

theorem samekind_pred_of_word {c : Char} (hc : isPySpace c = false) :
    (fun d => decide (isPySpace d = isPySpace c)) = (fun d => !isPySpace d) := by
  funext d
  rw [hc]
  cases isPySpace d <;> rfl

theorem wordsOf_nil : wordsOf [] = [] := rfl

theorem wordsOf_aux_space (t : Str) :
    wordsOf t = (splitChunks (t.dropWhile isPySpace)).filter isWordChunk := by
  cases t with
  | nil => rfl
  | cons d t' =>
      by_cases hd : isPySpace d = true
      · show (splitChunks (d :: t')).filter isWordChunk = _
        rw [splitChunks_cons, samekind_pred_of_space hd]
        rw [List.dropWhile_cons, if_pos hd]
        simp [List.filter_cons, isWordChunk, hd]
      · rw [List.dropWhile_cons, if_neg (by simp [hd])]
        rfl

theorem wordsOf_cons_space {c : Char} (t : Str) (hc : isPySpace c = true) :
    wordsOf (c :: t) = wordsOf t := by
  show (splitChunks (c :: t)).filter isWordChunk = _
  rw [splitChunks_cons, samekind_pred_of_space hc, wordsOf_aux_space t]
  simp [List.filter_cons, isWordChunk, hc]

theorem wordsOf_cons_word {c : Char} (t : Str) (hc : isPySpace c = false) :
    wordsOf (c :: t)
      = (c :: t.takeWhile (fun d => !isPySpace d)) ::
          wordsOf (t.dropWhile (fun d => !isPySpace d)) := by
  show (splitChunks (c :: t)).filter isWordChunk = _
  rw [splitChunks_cons, samekind_pred_of_word hc]
  simp only [List.filter_cons, isWordChunk, hc]
  rfl

theorem takeWhile_append_all {α : Type} (p : α → Bool) (x y : List α)
    (h : ∀ a ∈ x, p a = true) :
    List.takeWhile p (x ++ y) = x ++ List.takeWhile p y := by
  simp [List.takeWhile_append, List.takeWhile_eq_self_iff.mpr h]

theorem dropWhile_append_all {α : Type} (p : α → Bool) (x y : List α)
    (h : ∀ a ∈ x, p a = true) :
    List.dropWhile p (x ++ y) = List.dropWhile p y := by
  simp [List.dropWhile_append, List.isEmpty_iff, List.dropWhile_eq_nil_iff.mpr h]

theorem takeWhile_append_stop {α : Type} {p : α → Bool} {x : List α}
    (y : List α) (h : ¬ ∀ a ∈ x, p a = true) :
    List.takeWhile p (x ++ y) = List.takeWhile p x ∧
      List.dropWhile p (x ++ y) = List.dropWhile p x ++ y := by
  have hlen : ¬ (List.takeWhile p x).length = x.length := by
    intro hl
    exact h (List.takeWhile_eq_self_iff.mp
      (( List.takeWhile_prefix p).eq_of_length hl))
  have hemp : ¬ (List.dropWhile p x).isEmpty = true := by
    intro he
    exact h (List.dropWhile_eq_nil_iff.mp (List.isEmpty_iff.mp he))
  rw [List.takeWhile_append, List.dropWhile_append, if_neg hlen, if_neg hemp]
  exact ⟨rfl, rfl⟩

theorem wordsOf_allspace (sp : Str) (h : ∀ c ∈ sp, isPySpace c = true) :
    wordsOf sp = [] := by
  induction sp with
  | nil => rfl
  | cons c t ih =>
      rw [wordsOf_cons_space t (h c (by simp))]
      exact ih (fun d hd => h d (by simp [hd]))

theorem wordsOf_allspace_append (a x : Str) (h : ∀ c ∈ a, isPySpace c = true) :
    wordsOf (a ++ x) = wordsOf x := by
  induction a with
  | nil => rfl
  | cons c t ih =>
      show wordsOf (c :: (t ++ x)) = _
      rw [wordsOf_cons_space _ (h c (by simp))]
      exact ih (fun d hd => h d (by simp [hd]))

theorem wordsOf_word_append (ch x : Str) (hne : ch ≠ [])
    (hw : ∀ c ∈ ch, isPySpace c = false)
    (hx : x = [] ∨ ∃ d t, x = d :: t ∧ isPySpace d = true) :
    wordsOf (ch ++ x) = ch :: wordsOf x := by
  cases ch with
  | nil => exact absurd rfl hne
  | cons c ct =>
      show wordsOf (c :: (ct ++ x)) = _
      rw [wordsOf_cons_word (ct ++ x) (hw c (by simp))]
      have hct : ∀ a ∈ ct, (!isPySpace a) = true := fun a ha => by
        simp [hw a (by simp [ha])]
      rw [takeWhile_append_all _ ct x hct, dropWhile_append_all _ ct x hct]
      have hxt : x.takeWhile (fun d => !isPySpace d) = [] ∧
          x.dropWhile (fun d => !isPySpace d) = x := by
        rcases hx with rfl | ⟨d, t, rfl, hd⟩
        · exact ⟨rfl, rfl⟩
        · rw [List.takeWhile_cons, List.dropWhile_cons]
          simp [hd]
      rw [hxt.1, hxt.2, List.append_nil]

theorem wordsOf_append_sep :
    ∀ (x : Str) (d : Char) (y : Str), isPySpace d = true →
      wordsOf (x ++ d :: y) = wordsOf x ++ wordsOf y
  | [], d, y, hd => by
      rw [List.nil_append, wordsOf_cons_space y hd, wordsOf_nil,
        List.nil_append]
  | c :: x', d, y, hd => by
      by_cases hc : isPySpace c = true
      · show wordsOf (c :: (x' ++ d :: y)) = _
        rw [wordsOf_cons_space _ hc, wordsOf_cons_space x' hc]
        exact wordsOf_append_sep x' d y hd
      · have hc' : isPySpace c = false := Bool.eq_false_iff.mpr hc
        show wordsOf (c :: (x' ++ d :: y)) = _
        rw [wordsOf_cons_word _ hc', wordsOf_cons_word x' hc']
        by_cases hall : ∀ a ∈ x', (!isPySpace a) = true
        · rw [takeWhile_append_all _ x' (d :: y) hall,
            dropWhile_append_all _ x' (d :: y) hall,
            List.takeWhile_cons, List.dropWhile_cons,
            List.takeWhile_eq_self_iff.mpr hall,
            List.dropWhile_eq_nil_iff.mpr hall]
          simp only [hd, Bool.not_true, Bool.false_eq_true, if_false,
            reduceIte, List.append_nil]
          rw [wordsOf_cons_space y hd, wordsOf_nil]
          rfl
        · obtain ⟨h1, h2⟩ := takeWhile_append_stop (d :: y) hall
          rw [h1, h2,
            wordsOf_append_sep (x'.dropWhile (fun e => !isPySpace e)) d y hd]
          simp
termination_by x _ _ _ => x.length
decreasing_by
  · simp only [List.length_cons]
    exact Nat.lt_succ_self _
  · simp only [List.length_cons]
    exact Nat.lt_succ_of_le ((List.dropWhile_sublist _).length_le)

theorem pyStrip_eq_nil_iff (l : Str) :
    pyStrip l = [] ↔ ∀ c ∈ l, isPySpace c = true := by
  unfold pyStrip pyRstrip pyLstrip
  rw [List.reverse_eq_nil_iff, List.dropWhile_eq_nil_iff]
  constructor
  · intro h c hc
    have hc' : c ∈ l.takeWhile isPySpace ++ l.dropWhile isPySpace := by
      rw [List.takeWhile_append_dropWhile]
      exact hc
    rcases List.mem_append.mp hc' with h1 | h1
    · exact List.mem_takeWhile_imp h1
    · exact h c (List.mem_reverse.mpr h1)
  · intro h c hc
    exact h c ((List.dropWhile_sublist isPySpace).subset
      (List.mem_reverse.mp hc))

theorem pyRstrip_spec (l : Str) :
    ∃ sp, l = pyRstrip l ++ sp ∧ ∀ c ∈ sp, isPySpace c = true := by
  refine ⟨(l.reverse.takeWhile isPySpace).reverse, ?_, ?_⟩
  · unfold pyRstrip
    conv_lhs =>
      rw [← List.reverse_reverse l,
        ← List.takeWhile_append_dropWhile isPySpace l.reverse]
    rw [List.reverse_append]
  · intro c hc
    exact List.mem_takeWhile_imp (List.mem_reverse.mp hc)

theorem wordsOf_append_allspace (x sp : Str)
    (h : ∀ c ∈ sp, isPySpace c = true) :
    wordsOf (x ++ sp) = wordsOf x := by
  cases sp with
  | nil => rw [List.append_nil]
  | cons d sp' =>
      rw [wordsOf_append_sep x d sp' (h d (by simp)),
        wordsOf_allspace sp' (fun c hc => h c (by simp [hc])),
        List.append_nil]

theorem wordsOf_pyStrip (l : Str) : wordsOf (pyStrip l) = wordsOf l := by
  obtain ⟨sp, hsp, hall⟩ := pyRstrip_spec (pyLstrip l)
  have h1 : wordsOf (pyLstrip l) = wordsOf (pyStrip l) := by
    conv_lhs => rw [hsp]
    exact wordsOf_append_allspace _ sp hall
  rw [← h1]
  show wordsOf (l.dropWhile isPySpace) = wordsOf l
  conv_rhs => rw [← List.takeWhile_append_dropWhile isPySpace l]
  exact (wordsOf_allspace_append _ _
    (fun c hc => List.mem_takeWhile_imp hc)).symm

theorem wordsOf_joinSep (sep : Char) (hsep : isPySpace sep = true) :
    ∀ L : List Str, wordsOf (joinSep sep L) = (L.map wordsOf).flatten
  | [] => rfl
  | [l] => by simp [joinSep]
  | l :: l2 :: ls => by
      show wordsOf (l ++ sep :: joinSep sep (l2 :: ls)) = _
      rw [wordsOf_append_sep l sep _ hsep, wordsOf_joinSep sep hsep (l2 :: ls)]
      simp

theorem dropWhile_head_not {α : Type} (p : α → Bool) :
    ∀ (l : List α) (d : α) (r : List α), l.dropWhile p = d :: r → p d = false
  | [], _, _, h => by cases h
  | c :: t, d, r, h => by
      rw [List.dropWhile_cons] at h
      by_cases hc : p c = true
      · rw [if_pos hc] at h
        exact dropWhile_head_not p t d r h
      · rw [if_neg hc] at h
        cases h
        exact Bool.eq_false_iff.mpr hc

theorem wordsOf_map_spacepreserving (f : Char → Char)
    (hsp : ∀ c, isPySpace (f c) = isPySpace c)
    (hid : ∀ c, isPySpace c = false → f c = c) :
    ∀ s : Str, wordsOf (s.map f) = wordsOf s
  | [] => rfl
  | c :: t => by
      by_cases hc : isPySpace c = true
      · show wordsOf (f c :: t.map f) = _
        rw [wordsOf_cons_space _ (by rw [hsp c]; exact hc),
          wordsOf_cons_space t hc]
        exact wordsOf_map_spacepreserving f hsp hid t
      · have hc' : isPySpace c = false := Bool.eq_false_iff.mpr hc
        show wordsOf (f c :: t.map f) = _
        rw [hid c hc', wordsOf_cons_word _ hc', wordsOf_cons_word t hc']
        have hpred : ((fun d => !isPySpace d) ∘ f) = (fun d => !isPySpace d) := by
          funext d
          simp [Function.comp, hsp d]
        rw [List.takeWhile_map, List.dropWhile_map, hpred]
        have hmapid : (t.takeWhile (fun d => !isPySpace d)).map f
            = t.takeWhile (fun d => !isPySpace d) := by
          rw [List.map_congr_left
            (fun a ha => hid a (by simpa using List.mem_takeWhile_imp ha)),
            List.map_id']
        rw [hmapid,
          wordsOf_map_spacepreserving f hsp hid
            (t.dropWhile (fun d => !isPySpace d))]
termination_by s => s.length
decreasing_by
  · simp only [List.length_cons]
    exact Nat.lt_succ_self _
  · simp only [List.length_cons]
    exact Nat.lt_succ_of_le ((List.dropWhile_sublist _).length_le)

theorem expandTabsGo_cons_word {c : Char} (t : Str) (col : Nat)
    (hc : isPySpace c = false) :
    expandTabsGo (c :: t) col = c :: expandTabsGo t (col + 1) := by
  have ht : ¬(c = '\t') := by
    intro h
    rw [h] at hc
    cases hc
  have hn : ¬(c = '\n') := by
    intro h
    rw [h] at hc
    cases hc
  have hr : ¬(c = '\r') := by
    intro h
    rw [h] at hc
    cases hc
  show (if c = '\t' then _ else if (c = '\n' || c = '\r') then _ else _) = _
  rw [if_neg ht, if_neg (by simp [hn, hr])]

theorem expandTabs_word_prefix :
    ∀ (t : Str) (col : Nat), ∃ col2,
      expandTabsGo t col
        = t.takeWhile (fun d => !isPySpace d) ++
            expandTabsGo (t.dropWhile (fun d => !isPySpace d)) col2
  | [], col => ⟨col, rfl⟩
  | c :: t', col => by
      by_cases hc : isPySpace c = true
      · refine ⟨col, ?_⟩
        rw [List.takeWhile_cons, List.dropWhile_cons]
        simp [hc]
      · have hc' : isPySpace c = false := Bool.eq_false_iff.mpr hc
        obtain ⟨col2, ih⟩ := expandTabs_word_prefix t' (col + 1)
        refine ⟨col2, ?_⟩
        rw [expandTabsGo_cons_word t' col hc', ih,
          List.takeWhile_cons, List.dropWhile_cons]
        simp [hc']

theorem expandTabs_space_head (s : Str) (col : Nat)
    (h : ∀ d t, s = d :: t → isPySpace d = true) :
    (expandTabsGo s col).takeWhile (fun e => !isPySpace e) = [] ∧
      (expandTabsGo s col).dropWhile (fun e => !isPySpace e)
        = expandTabsGo s col := by
  cases s with
  | nil => exact ⟨rfl, rfl⟩
  | cons d t =>
      have hd := h d t rfl
      have hstep : ∃ e r, expandTabsGo (d :: t) col = e :: r ∧
          isPySpace e = true := by
        show ∃ e r, (if d = '\t' then
            List.replicate (8 - col % 8) ' ' ++
              expandTabsGo t (col + (8 - col % 8))
          else if (d = '\n' || d = '\r') then d :: expandTabsGo t 0
          else d :: expandTabsGo t (col + 1)) = e :: r ∧ isPySpace e = true
        by_cases ht : d = '\t'
        · rw [if_pos ht]
          obtain ⟨k, hk⟩ : ∃ k, 8 - col % 8 = k + 1 :=
            ⟨8 - col % 8 - 1, by omega⟩
          rw [hk, List.replicate_succ, List.cons_append]
          exact ⟨' ', _, rfl, rfl⟩
        · rw [if_neg ht]
          by_cases hnr : (d = '\n' || d = '\r') = true
          · rw [if_pos hnr]
            exact ⟨d, _, rfl, hd⟩
          · rw [if_neg hnr]
            exact ⟨d, _, rfl, hd⟩
      obtain ⟨e, r, he, hesp⟩ := hstep
      rw [he, List.takeWhile_cons, List.dropWhile_cons]
      constructor <;> simp [hesp]

theorem wordsOf_expandTabs :
    ∀ (s : Str) (col : Nat), wordsOf (expandTabsGo s col) = wordsOf s
  | [], _ => rfl
  | c :: t, col => by
      by_cases hc : isPySpace c = true
      · by_cases ht : c = '\t'
        · subst ht
          show wordsOf (if ('\t' : Char) = '\t' then _ else _) = _
          rw [if_pos rfl,
            wordsOf_allspace_append _ _ (fun d hd => by
              rw [List.eq_of_mem_replicate hd]; rfl),
            wordsOf_expandTabs t (col + (8 - col % 8)),
            wordsOf_cons_space t hc]
        · have hstep : ∃ col2, expandTabsGo (c :: t) col
              = c :: expandTabsGo t col2 := by
            show ∃ col2, (if c = '\t' then _ else if (c = '\n' || c = '\r')
              then _ else _) = c :: expandTabsGo t col2
            rw [if_neg ht]
            by_cases hnr : (c = '\n' || c = '\r') = true
            · rw [if_pos hnr]
              exact ⟨0, rfl⟩
            · rw [if_neg hnr]
              exact ⟨col + 1, rfl⟩
          obtain ⟨col2, hr⟩ := hstep
          rw [hr, wordsOf_cons_space _ hc, wordsOf_cons_space t hc,
            wordsOf_expandTabs t col2]
      · have hc' : isPySpace c = false := Bool.eq_false_iff.mpr hc
        rw [expandTabsGo_cons_word t col hc',
          wordsOf_cons_word _ hc', wordsOf_cons_word t hc']
        obtain ⟨col2, hw⟩ := expandTabs_word_prefix t (col + 1)
        rw [hw]
        have hall : ∀ a ∈ t.takeWhile (fun d => !isPySpace d),
            (!isPySpace a) = true := fun a ha => by
          have h0 := @List.mem_takeWhile_imp _ (fun d => !isPySpace d) t a ha
          simpa using h0
        rw [takeWhile_append_all _ _ _ hall, dropWhile_append_all _ _ _ hall]
        have hsp := expandTabs_space_head
          (t.dropWhile (fun d => !isPySpace d)) col2
          (fun d r hdr => by
            have := dropWhile_head_not (fun d => !isPySpace d) t d r hdr
            simpa using this)
        rw [hsp.1, hsp.2, List.append_nil,
          wordsOf_expandTabs (t.dropWhile fun d => !isPySpace d) col2]
termination_by s _ => s.length
decreasing_by
  all_goals simp only [List.length_cons]
  all_goals first
    | exact Nat.lt_succ_self _
    | exact Nat.lt_succ_of_le ((List.dropWhile_sublist _).length_le)

theorem wordsOf_munge (s : Str) : wordsOf (mungeWhitespace s) = wordsOf s := by
  unfold mungeWhitespace
  rw [wordsOf_map_spacepreserving _ ?hsp ?hid, wordsOf_expandTabs s 0]
  case hsp =>
    intro c
    by_cases hc : isPySpace c = true
    · rw [if_pos hc, hc]
      rfl
    · rw [if_neg hc]
  case hid =>
    intro c hc
    rw [if_neg (by simp [hc])]

theorem splitChunks_WF :
    ∀ s : Str, WFChunks (splitChunks s)
  | [] => ⟨fun _ hch => (nomatch hch), List.chain'_nil⟩
  | c :: t => by
      rw [splitChunks_cons]
      obtain ⟨ihm, ihc⟩ :=
        splitChunks_WF (t.dropWhile (fun d => isPySpace d = isPySpace c))
      constructor
      · intro ch hch
        rcases List.mem_cons.mp hch with rfl | hmem
        · refine ⟨by simp, isPySpace c, ?_⟩
          intro d hd
          rcases List.mem_cons.mp hd with rfl | hd'
          · rfl
          · exact of_decide_eq_true
              (@List.mem_takeWhile_imp _
                (fun e => decide (isPySpace e = isPySpace c)) t d hd')
        · exact ihm ch hmem
      · rw [List.chain'_cons']
        refine ⟨?_, ihc⟩
        intro y hy
        cases hrest : t.dropWhile (fun d => isPySpace d = isPySpace c) with
        | nil =>
            rw [hrest, show splitChunks [] = [] from rfl] at hy
            simp at hy
        | cons d r =>
            rw [hrest, splitChunks_cons] at hy
            simp only [List.head?_cons, Option.mem_def, Option.some.injEq] at hy
            subst hy
            have hd : isPySpace d ≠ isPySpace c :=
              of_decide_eq_false
                (dropWhile_head_not (fun e => decide (isPySpace e = isPySpace c))
                  t d r hrest)
            intro heq
            simp only [isWordChunk] at heq
            exact hd (Bool.not_inj heq).symm
termination_by s => s.length
decreasing_by
  simp only [List.length_cons]
  exact Nat.lt_succ_of_le ((List.dropWhile_sublist _).length_le)

theorem WFChunks_infix {l l' : List Str} (h : WFChunks l) (hinf : l' <:+: l) :
    WFChunks l' := by
  obtain ⟨hm, hc⟩ := h
  exact ⟨fun ch hch => hm ch (hinf.subset hch), hc.infix hinf⟩

theorem isWordChunk_false_of_blank {ch : Str}
    (hu : ch ≠ [] ∧ ∃ b, ∀ c ∈ ch, isPySpace c = b)
    (hblank : pyStrip ch = []) : isWordChunk ch = false := by
  cases ch with
  | nil => exact absurd rfl hu.1
  | cons c t =>
      have := (pyStrip_eq_nil_iff (c :: t)).mp hblank c (by simp)
      simp [isWordChunk, this]

theorem isWordChunk_true_of_nonblank {ch : Str}
    (hu : ch ≠ [] ∧ ∃ b, ∀ c ∈ ch, isPySpace c = b)
    (hblank : pyStrip ch ≠ []) : isWordChunk ch = true := by
  cases ch with
  | nil => exact absurd rfl hu.1
  | cons c t =>
      obtain ⟨_, b, hb⟩ := hu
      by_cases hcb : isPySpace c = true
      · exfalso
        apply hblank
        rw [pyStrip_eq_nil_iff]
        intro d hd
        rw [hb d hd, ← hb c (by simp), hcb]
      · simp [isWordChunk, Bool.eq_false_iff.mpr hcb]

theorem chunk_all_nonspace_of_word {ch : Str}
    (hu : ch ≠ [] ∧ ∃ b, ∀ c ∈ ch, isPySpace c = b)
    (hw : isWordChunk ch = true) : ∀ c ∈ ch, isPySpace c = false := by
  cases ch with
  | nil => exact absurd rfl hu.1
  | cons c t =>
      obtain ⟨_, b, hb⟩ := hu
      have hc : isPySpace c = false := by
        by_cases h1 : isPySpace c = true
        · rw [isWordChunk, h1] at hw
          cases hw
        · exact Bool.eq_false_iff.mpr h1
      intro d hd
      rw [hb d hd, ← hb c (by simp), hc]

theorem chunk_all_space_of_not_word {ch : Str}
    (hu : ch ≠ [] ∧ ∃ b, ∀ c ∈ ch, isPySpace c = b)
    (hw : isWordChunk ch = false) : ∀ c ∈ ch, isPySpace c = true := by
  cases ch with
  | nil => exact absurd rfl hu.1
  | cons c t =>
      obtain ⟨_, b, hb⟩ := hu
      have hc : isPySpace c = true := by
        by_cases h1 : isPySpace c = true
        · exact h1
        · rw [isWordChunk, Bool.eq_false_iff.mpr h1] at hw
          cases hw
      intro d hd
      rw [hb d hd, ← hb c (by simp), hc]

theorem takeFits_append (widthI : Int) :
    ∀ (curLen : Nat) (l : List Str),
      (takeFits widthI curLen l).fst ++ (takeFits widthI curLen l).snd = l
  | _, [] => rfl
  | curLen, ch :: rest => by
      simp only [takeFits]
      by_cases h : ((curLen : Int) + ch.length) ≤ widthI
      · rw [if_pos h]
        simpa using takeFits_append widthI (curLen + ch.length) rest
      · rw [if_neg h]
        rfl

theorem takeFits_fst_sum (widthI : Int) :
    ∀ (curLen : Nat) (l : List Str),
      (takeFits widthI curLen l).fst = [] ∨
        (curLen : Int) + (((takeFits widthI curLen l).fst.map List.length).sum : Nat)
          ≤ widthI
  | _, [] => Or.inl rfl
  | curLen, ch :: rest => by
      simp only [takeFits]
      by_cases h : ((curLen : Int) + ch.length) ≤ widthI
      · rw [if_pos h]
        right
        rcases takeFits_fst_sum widthI (curLen + ch.length) rest with h1 | h1
        · simp only [h1]
          simpa using h
        · simp only [List.map_cons, List.sum_cons]
          push_cast at h1 ⊢
          omega
      · rw [if_neg h]
        exact Or.inl rfl

theorem takeFits_stop (widthI : Int) :
    ∀ (curLen : Nat) (l : List Str) (c : Str) (rtl : List Str),
      (takeFits widthI curLen l).snd = c :: rtl →
      (takeFits widthI curLen l).fst ≠ [] ∨
        ¬ (((curLen : Int) + c.length) ≤ widthI)
  | _, [], _, _, h => by cases h
  | curLen, ch :: rest, c, rtl, h => by
      simp only [takeFits] at h ⊢
      by_cases hf : ((curLen : Int) + ch.length) ≤ widthI
      · rw [if_pos hf] at h ⊢
        left
        simp
      · rw [if_neg hf] at h ⊢
        right
        cases h
        exact hf

theorem dropTrailingWsChunk_spec (cur : List Str) :
    ∃ post, cur = dropTrailingWsChunk cur ++ post ∧ post.length ≤ 1 ∧
      ∀ ch ∈ post, pyStrip ch = [] := by
  cases hl : cur.getLast? with
  | none =>
      refine ⟨[], ?_, by simp, by simp⟩
      simp only [dropTrailingWsChunk, hl]
      simp [List.getLast?_eq_none_iff.mp hl]
  | some ch =>
      by_cases hb : (pyStrip ch).isEmpty = true
      · refine ⟨[ch], ?_, by simp, ?_⟩
        · simp only [dropTrailingWsChunk, hl, if_pos hb]
          exact (List.dropLast_append_getLast? ch hl).symm
        · intro x hx
          simp only [List.mem_singleton] at hx
          subst hx
          exact List.isEmpty_iff.mp hb
      · refine ⟨[], ?_, by simp, by simp⟩
        simp only [dropTrailingWsChunk, hl, if_neg hb]
        simp

theorem dropLeadingWsChunk_spec (emitted : Bool) (chunks : List Str) :
    ∃ pre, chunks = pre ++ dropLeadingWsChunk emitted chunks ∧
      pre.length ≤ 1 ∧ ∀ ch ∈ pre, pyStrip ch = [] := by
  cases chunks with
  | nil => exact ⟨[], rfl, by simp, by simp⟩
  | cons ch rest =>
      by_cases hb : (emitted && (pyStrip ch).isEmpty) = true
      · refine ⟨[ch], ?_, by simp, ?_⟩
        · simp only [dropLeadingWsChunk, if_pos hb]
          rfl
        · intro x hx
          simp only [List.mem_singleton] at hx
          subst hx
          exact List.isEmpty_iff.mp (Bool.and_eq_true_iff.mp hb).2
      · refine ⟨[], ?_, by simp, by simp⟩
        simp only [dropLeadingWsChunk, if_neg hb]
        rfl

theorem wrapCollect_nil_eq {widthI : Int} {chunks1 cur : List Str}
    (h : takeFits widthI 0 chunks1 = (cur, [])) :
    wrapCollect widthI chunks1 = (cur, []) := by
  unfold wrapCollect
  rw [h]

theorem wrapCollect_long_eq {widthI : Int} {chunks1 cur c rtl}
    (h : takeFits widthI 0 chunks1 = (cur, c :: rtl))
    (hlong : (widthI < (c.length : Int) && cur.isEmpty) = true) :
    wrapCollect widthI chunks1 = (cur ++ [c], rtl) := by
  unfold wrapCollect
  rw [h]
  show (if widthI < (c.length : Int) && cur.isEmpty then (cur ++ [c], rtl)
    else (cur, c :: rtl)) = _
  rw [if_pos hlong]

theorem wrapCollect_fit_eq {widthI : Int} {chunks1 cur c rtl}
    (h : takeFits widthI 0 chunks1 = (cur, c :: rtl))
    (hlong : ¬((widthI < (c.length : Int) && cur.isEmpty) = true)) :
    wrapCollect widthI chunks1 = (cur, c :: rtl) := by
  unfold wrapCollect
  rw [h]
  show (if widthI < (c.length : Int) && cur.isEmpty then (cur ++ [c], rtl)
    else (cur, c :: rtl)) = _
  rw [if_neg hlong]

theorem wrapCollect_spec (widthI : Int) (chunks1 : List Str) :
    (wrapCollect widthI chunks1).fst ++ (wrapCollect widthI chunks1).snd
        = chunks1 ∧
      ((wrapCollect widthI chunks1).fst = [] → chunks1 = []) ∧
      ((wrapCollect widthI chunks1).fst ≠ [] →
        (((((wrapCollect widthI chunks1).fst.map List.length).sum : Nat) : Int)
            ≤ widthI ∨
          ∃ c, (wrapCollect widthI chunks1).fst = [c])) := by
  have happ := takeFits_append widthI 0 chunks1
  have hsum := takeFits_fst_sum widthI 0 chunks1
  cases htk : takeFits widthI 0 chunks1 with
  | mk cur rest =>
      rw [htk] at happ hsum
      simp only at happ hsum
      cases rest with
      | nil =>
          rw [wrapCollect_nil_eq htk]
          simp only [List.append_nil] at happ
          subst happ
          refine ⟨by simp, fun h => h, ?_⟩
          intro hne
          rcases hsum with h1 | h1
          · exact absurd h1 hne
          · left
            simpa using h1
      | cons c rtl =>
          by_cases hlong : (widthI < (c.length : Int) && cur.isEmpty) = true
          · rw [wrapCollect_long_eq htk hlong]
            obtain ⟨_, hcur⟩ := Bool.and_eq_true_iff.mp hlong
            have hcur' : cur = [] := List.isEmpty_iff.mp hcur
            subst hcur'
            refine ⟨by simpa using happ, fun h => by simp at h, ?_⟩
            intro _
            right
            exact ⟨c, rfl⟩
          · rw [wrapCollect_fit_eq htk hlong]
            have hcurne : cur ≠ [] := by
              intro h
              subst h
              rcases takeFits_stop widthI 0 chunks1 c rtl
                  (by rw [htk]) with h1 | h1
              · rw [htk] at h1
                exact h1 rfl
              · have hlt : widthI < (c.length : Int) := by
                  push_cast at h1
                  omega
                apply hlong
                simp [hlt]
            refine ⟨happ, fun h => absurd h hcurne, ?_⟩
            intro _
            rcases hsum with h1 | h1
            · exact absurd h1 hcurne
            · left
              simpa using h1

theorem wrapStep_snd (w : Nat) (ii si : Str) (chunks : List Str)
    (emitted : Bool) :
    (wrapStep w ii si chunks emitted).snd =
      (wrapCollect ((w : Int) - ((if emitted then si else ii).length : Int))
        (dropLeadingWsChunk emitted chunks)).snd := rfl

theorem wrapStep_fst (w : Nat) (ii si : Str) (chunks : List Str)
    (emitted : Bool) :
    (wrapStep w ii si chunks emitted).fst =
      (if (dropTrailingWsChunk
            (wrapCollect ((w : Int) - ((if emitted then si else ii).length : Int))
              (dropLeadingWsChunk emitted chunks)).fst).isEmpty then none
       else some ((if emitted then si else ii) ++
         (dropTrailingWsChunk
           (wrapCollect ((w : Int) - ((if emitted then si else ii).length : Int))
             (dropLeadingWsChunk emitted chunks)).fst).flatten)) := rfl

theorem wrapStep_spec (w : Nat) (ii si : Str) (chunks : List Str)
    (emitted : Bool) (hne : chunks ≠ []) :
    ∃ pre cur3 post,
      chunks = pre ++ (cur3 ++ (post ++ (wrapStep w ii si chunks emitted).snd)) ∧
      (∀ ch ∈ pre ++ post, pyStrip ch = []) ∧
      pre ++ (cur3 ++ post) ≠ [] ∧
      (wrapStep w ii si chunks emitted).fst =
        (if cur3.isEmpty then none
         else some ((if emitted then si else ii) ++ cur3.flatten)) ∧
      (WFChunks chunks → cur3 ≠ [] →
        ((∃ chl, cur3.getLast? = some chl ∧ isWordChunk chl = true) ∧
          (((((cur3.map List.length).sum : Nat) : Int)
              ≤ (w : Int) - ((if emitted then si else ii).length : Int)) ∨
            ∃ c, cur3 = [c]))) := by
  rw [wrapStep_fst, wrapStep_snd]
  obtain ⟨pre, hpre_eq, hpre_len, hpre_blank⟩ := dropLeadingWsChunk_spec emitted chunks
  obtain ⟨happ, hnil, hbound⟩ :=
    wrapCollect_spec ((w : Int) - ((if emitted then si else ii).length : Int))
      (dropLeadingWsChunk emitted chunks)
  cases hcw : wrapCollect ((w : Int) - ((if emitted then si else ii).length : Int))
      (dropLeadingWsChunk emitted chunks) with
  | mk cur rest2 =>
  rw [hcw] at happ hnil hbound
  simp only at happ hnil hbound ⊢
  obtain ⟨post, hpost_eq, hpost_len, hpost_blank⟩ := dropTrailingWsChunk_spec cur
  refine ⟨pre, dropTrailingWsChunk cur, post, ?_, ?_, ?_, rfl, ?_⟩
  · rw [hpre_eq, ← happ]
    conv_lhs => rw [hpost_eq]
    simp
  · intro ch hch
    rcases List.mem_append.mp hch with h | h
    · exact hpre_blank ch h
    · exact hpost_blank ch h
  · intro hnil3
    simp only [List.append_eq_nil] at hnil3
    obtain ⟨hpre0, hcur30, hpost0⟩ := hnil3
    have hcur0 : cur = [] := by
      rw [hpost_eq, hcur30, hpost0]
      rfl
    exact hne (by rw [hpre_eq, hnil hcur0, hpre0]; rfl)
  · intro hWF hc3ne
    have hcurinf : cur <:+: chunks := by
      refine ⟨pre, rest2, ?_⟩
      rw [hpre_eq, ← happ]
      simp
    have hWFcur : WFChunks cur := WFChunks_infix hWF hcurinf
    have hcurne : cur ≠ [] := by
      intro h0
      exact hc3ne (by rw [h0]; rfl)
    cases hl : cur.getLast? with
    | none => exact absurd (List.getLast?_eq_none_iff.mp hl) hcurne
    | some ch =>
        have hcheq : cur = cur.dropLast ++ [ch] :=
          (List.dropLast_append_getLast? ch hl).symm
        have hchmem : ch ∈ cur := by
          rw [hcheq]
          simp
        have hchu := hWFcur.1 ch hchmem
        by_cases hb : (pyStrip ch).isEmpty = true
        · have hc3 : dropTrailingWsChunk cur = cur.dropLast := by
            simp only [dropTrailingWsChunk, hl, if_pos hb]
          rw [hc3] at hc3ne ⊢
          cases hl2 : cur.dropLast.getLast? with
          | none => exact absurd (List.getLast?_eq_none_iff.mp hl2) hc3ne
          | some chl =>
              have hcheq2 : cur.dropLast = cur.dropLast.dropLast ++ [chl] :=
                (List.dropLast_append_getLast? chl hl2).symm
              have hinf2 : [chl, ch] <:+: cur := by
                refine ⟨cur.dropLast.dropLast, [], ?_⟩
                rw [List.append_nil]
                conv_rhs => rw [hcheq, hcheq2]
                simp
              have hchain := List.Chain'.infix hWFcur.2 hinf2
              have hrel : isWordChunk chl ≠ isWordChunk ch :=
                (List.chain'_cons.mp hchain).1
              have hchw : isWordChunk ch = false :=
                isWordChunk_false_of_blank hchu (List.isEmpty_iff.mp hb)
              have hchlw : isWordChunk chl = true := by
                cases h3 : isWordChunk chl
                · exact absurd (h3.trans hchw.symm) hrel
                · rfl
              refine ⟨⟨chl, rfl, hchlw⟩, ?_⟩
              rcases hbound hcurne with hs | ⟨c, hc⟩
              · left
                rw [hcheq] at hs
                simp only [List.map_append, List.sum_append, List.map_cons,
                  List.sum_cons, List.map_nil, List.sum_nil] at hs
                push_cast at hs ⊢
                omega
              · exact absurd (by rw [hc]; rfl) hc3ne
        · have hc3 : dropTrailingWsChunk cur = cur := by
            simp only [dropTrailingWsChunk, hl, if_neg hb]
          rw [hc3] at hc3ne ⊢
          have hchw : isWordChunk ch = true :=
            isWordChunk_true_of_nonblank hchu (by simpa using hb)
          exact ⟨⟨ch, hl, hchw⟩, hbound hcurne⟩
theorem filter_word_nil : ∀ (l : List Str),
    (∀ ch ∈ l, isWordChunk ch = false) → l.filter isWordChunk = []
  | [], _ => rfl
  | ch :: t, h => by
      rw [List.filter_cons, if_neg (by simp [h ch (by simp)])]
      exact filter_word_nil t (fun x hx => h x (by simp [hx]))

theorem wordsOf_flatten_WF : ∀ (chunks : List Str), WFChunks chunks →
    wordsOf chunks.flatten = chunks.filter isWordChunk
  | [], _ => rfl
  | ch :: rest, hWF => by
      have hu := hWF.1 ch (by simp)
      have hWFr : WFChunks rest :=
        WFChunks_infix hWF ⟨[ch], [], by simp⟩
      rw [List.flatten_cons]
      by_cases hw : isWordChunk ch = true
      · have hall := chunk_all_nonspace_of_word hu hw
        have hx : rest.flatten = [] ∨
            ∃ d t, rest.flatten = d :: t ∧ isPySpace d = true := by
          cases rest with
          | nil => exact Or.inl rfl
          | cons ch2 r2 =>
              have hu2 := hWF.1 ch2 (by simp)
              have hrel : isWordChunk ch ≠ isWordChunk ch2 :=
                (List.chain'_cons.mp hWF.2).1
              have hw2 : isWordChunk ch2 = false := by
                cases h2 : isWordChunk ch2
                · rfl
                · exact absurd (hw.trans h2.symm) hrel
              have hsp := chunk_all_space_of_not_word hu2 hw2
              cases hch2 : ch2 with
              | nil => exact absurd hch2 hu2.1
              | cons d t =>
                  refine Or.inr ⟨d, t ++ r2.flatten, ?_, ?_⟩
                  · rw [List.flatten_cons]
                    rfl
                  · exact hsp d (by rw [hch2]; simp)
        rw [wordsOf_word_append ch rest.flatten hu.1 hall hx,
          List.filter_cons, if_pos hw, wordsOf_flatten_WF rest hWFr]
      · have hw' : isWordChunk ch = false := Bool.eq_false_iff.mpr hw
        have hsp := chunk_all_space_of_not_word hu hw'
        rw [wordsOf_allspace_append ch rest.flatten hsp,
          List.filter_cons, if_neg (by simp [hw']), wordsOf_flatten_WF rest hWFr]

theorem wordsOf_eq_nil_iff : ∀ l : Str,
    (wordsOf l = [] ↔ ∀ c ∈ l, isPySpace c = true)
  | [] => by simp [wordsOf_nil]
  | c :: t => by
      by_cases hc : isPySpace c = true
      · rw [wordsOf_cons_space t hc, wordsOf_eq_nil_iff t]
        constructor
        · intro h d hd
          rcases List.mem_cons.mp hd with rfl | hd'
          · exact hc
          · exact h d hd'
        · intro h d hd
          exact h d (by simp [hd])
      · rw [wordsOf_cons_word t (Bool.eq_false_iff.mpr hc)]
        constructor
        · intro h
          simp at h
        · intro h
          exact absurd (h c (by simp)) hc

theorem wrapGo_nil (w : Nat) (ii si : Str) (fuel : Nat) (emitted : Bool) :
    wrapGo w ii si (fuel + 1) [] emitted = [] := rfl

theorem wrapGo_succ_none (w : Nat) (ii si : Str) (fuel : Nat) (ch : Str)
    (cr : List Str) (emitted : Bool)
    (h : (wrapStep w ii si (ch :: cr) emitted).fst = none) :
    wrapGo w ii si (fuel + 1) (ch :: cr) emitted =
      wrapGo w ii si fuel (wrapStep w ii si (ch :: cr) emitted).snd emitted := by
  simp only [wrapGo, h]

theorem wrapGo_succ_some (w : Nat) (ii si : Str) (fuel : Nat) (ch line : Str)
    (cr : List Str) (emitted : Bool)
    (h : (wrapStep w ii si (ch :: cr) emitted).fst = some line) :
    wrapGo w ii si (fuel + 1) (ch :: cr) emitted =
      line :: wrapGo w ii si fuel (wrapStep w ii si (ch :: cr) emitted).snd true := by
  simp only [wrapGo, h]

theorem wrapGo_spec (w : Nat) (ii si : Str)
    (hii : ∀ c ∈ ii, isPySpace c = true)
    (hsi : ∀ c ∈ si, isPySpace c = true) :
    ∀ (fuel : Nat) (chunks : List Str) (emitted : Bool),
      chunks.length < fuel → WFChunks chunks →
      (∀ line ∈ wrapGo w ii si fuel chunks emitted,
        pyStrip line ≠ [] ∧
          (line.length ≤ w ∨
            ∃ ind wd, line = ind ++ wd ∧ (∀ c ∈ ind, isPySpace c = true) ∧
              wd ≠ [] ∧ ∀ c ∈ wd, isPySpace c = false)) ∧
      ((wrapGo w ii si fuel chunks emitted).map wordsOf).flatten
        = chunks.filter isWordChunk
  | 0, chunks, emitted, hlen, _ => absurd hlen (by omega)
  | fuel + 1, [], emitted, _, _ => by
      rw [wrapGo_nil]
      exact ⟨fun line hl => absurd hl (by simp), by simp⟩
  | fuel + 1, ch :: cr, emitted, hlen, hWF => by
      obtain ⟨pre, cur3, post, heq, hblank, hne3, hfst, hlast⟩ :=
        wrapStep_spec w ii si (ch :: cr) emitted (by simp)
      have hind : ∀ c ∈ (if emitted then si else ii), isPySpace c = true := by
        cases emitted
        · simpa using hii
        · simpa using hsi
      have hlentot : (ch :: cr).length =
          pre.length + (cur3.length + (post.length +
            (wrapStep w ii si (ch :: cr) emitted).snd.length)) := by
        conv_lhs => rw [heq]
        simp [List.length_append]
      have hWFsnd : WFChunks (wrapStep w ii si (ch :: cr) emitted).snd := by
        refine WFChunks_infix hWF ⟨pre ++ (cur3 ++ post), [], ?_⟩
        rw [List.append_nil]
        conv_rhs => rw [heq]
        simp
      have hpreblank : ∀ x ∈ pre, isWordChunk x = false := by
        intro x hx
        refine isWordChunk_false_of_blank (hWF.1 x ?_) (hblank x (by simp [hx]))
        rw [heq]
        simp [hx]
      have hpostblank : ∀ x ∈ post, isWordChunk x = false := by
        intro x hx
        refine isWordChunk_false_of_blank (hWF.1 x ?_) (hblank x (by simp [hx]))
        rw [heq]
        simp [hx]
      have hfilter : (ch :: cr).filter isWordChunk =
          cur3.filter isWordChunk ++
            ((wrapStep w ii si (ch :: cr) emitted).snd).filter isWordChunk := by
        conv_lhs => rw [heq]
        rw [List.filter_append, List.filter_append, List.filter_append,
          filter_word_nil pre hpreblank, filter_word_nil post hpostblank]
        simp
      cases cur3 with
      | nil =>
          have hgo : wrapGo w ii si (fuel + 1) (ch :: cr) emitted =
              wrapGo w ii si fuel (wrapStep w ii si (ch :: cr) emitted).snd
                emitted :=
            wrapGo_succ_none w ii si fuel ch cr emitted (by rw [hfst]; simp)
          have hlen2 : (wrapStep w ii si (ch :: cr) emitted).snd.length < fuel := by
            have hpos : 0 < (pre ++ ([] ++ post)).length := List.length_pos.mpr hne3
            simp only [List.length_append, List.length_nil] at hpos hlentot
            simp only [List.length_cons] at hlen hlentot
            omega
          obtain ⟨ih1, ih2⟩ := wrapGo_spec w ii si hii hsi fuel _ emitted hlen2 hWFsnd
          rw [hgo, hfilter]
          exact ⟨ih1, by rw [ih2]; simp⟩
      | cons c3 t3 =>
          have hfst' : (wrapStep w ii si (ch :: cr) emitted).fst =
              some ((if emitted then si else ii) ++ (c3 :: t3).flatten) := by
            rw [hfst]
            simp
          have hgo : wrapGo w ii si (fuel + 1) (ch :: cr) emitted =
              ((if emitted then si else ii) ++ (c3 :: t3).flatten) ::
                wrapGo w ii si fuel (wrapStep w ii si (ch :: cr) emitted).snd
                  true :=
            wrapGo_succ_some w ii si fuel ch _ cr emitted hfst'
          have hlen2 : (wrapStep w ii si (ch :: cr) emitted).snd.length < fuel := by
            simp only [List.length_cons] at hlen hlentot
            omega
          obtain ⟨hword, hbound⟩ := hlast hWF (by simp)
          obtain ⟨chl, hgl, hchlw⟩ := hword
          have hc3eq : (c3 :: t3).dropLast ++ [chl] = c3 :: t3 :=
            List.dropLast_append_getLast? chl hgl
          have hchlmem : chl ∈ c3 :: t3 := by
            rw [← hc3eq]
            simp
          have hchlmem2 : chl ∈ ch :: cr := by
            rw [heq]
            exact List.mem_append.mpr
              (Or.inr (List.mem_append.mpr (Or.inl hchlmem)))
          have hchlu := hWF.1 chl hchlmem2
          have hnonsp := chunk_all_nonspace_of_word hchlu hchlw
          have hWFc3 : WFChunks (c3 :: t3) := by
            refine WFChunks_infix hWF ⟨pre, post ++ (wrapStep w ii si (ch :: cr) emitted).snd, ?_⟩
            conv_rhs => rw [heq]
            simp
          have hline1 :
              pyStrip ((if emitted then si else ii) ++ (c3 :: t3).flatten) ≠ [] := by
            intro hps
            rw [pyStrip_eq_nil_iff] at hps
            cases hchl : chl with
            | nil => exact hchlu.1 hchl
            | cons e et =>
                have hem : e ∈ (if emitted then si else ii) ++ (c3 :: t3).flatten := by
                  refine List.mem_append.mpr (Or.inr ?_)
                  exact List.mem_flatten.mpr ⟨chl, hchlmem, by rw [hchl]; simp⟩
                have h1 : isPySpace e = true := hps e hem
                have h2 : isPySpace e = false := hnonsp e (by rw [hchl]; simp)
                rw [h2] at h1
                cases h1
          have hline2 :
              ((if emitted then si else ii) ++ (c3 :: t3).flatten).length ≤ w ∨
                ∃ ind wd,
                  (if emitted then si else ii) ++ (c3 :: t3).flatten = ind ++ wd ∧
                    (∀ c ∈ ind, isPySpace c = true) ∧
                    wd ≠ [] ∧ ∀ c ∈ wd, isPySpace c = false := by
            rcases hbound with hs | ⟨c, hc⟩
            · left
              rw [List.length_append, List.length_flatten]
              omega
            · right
              have hchlc : c = chl := by
                rw [hc] at hgl
                simpa using hgl
              refine ⟨(if emitted then si else ii), c, ?_, hind, ?_, ?_⟩
              · rw [hc]
                simp
              · rw [hchlc]
                exact hchlu.1
              · rw [hchlc]
                exact hnonsp
          rw [hgo, hfilter]
          obtain ⟨ih1, ih2⟩ := wrapGo_spec w ii si hii hsi fuel _ true hlen2 hWFsnd
          constructor
          · intro line hl
            rcases List.mem_cons.mp hl with rfl | hl'
            · exact ⟨hline1, hline2⟩
            · exact ih1 line hl'
          · rw [List.map_cons, List.flatten_cons, ih2]
            congr 1
            rw [wordsOf_allspace_append _ _ hind]
            exact wordsOf_flatten_WF (c3 :: t3) hWFc3
theorem normCRLF_no_cr : ∀ s : Str, (∀ c ∈ s, c ≠ '\r') → normCRLF s = s
  | [], _ => rfl
  | [_], _ => rfl
  | c :: d :: t, h => by
      have hc : c ≠ '\r' := h c (by simp)
      show (if c = '\r' && d = '\n' then '\n' :: normCRLF t
            else c :: normCRLF (d :: t)) = c :: d :: t
      rw [if_neg (by simp [hc]),
        normCRLF_no_cr (d :: t) (fun e he => h e (List.mem_cons_of_mem c he))]

theorem splitNl_no_nl : ∀ s : Str, (∀ c ∈ s, c ≠ '\n') → splitNl s = [s]
  | [], _ => rfl
  | c :: t, h => by
      have hc : c ≠ '\n' := h c (by simp)
      simp only [splitNl, if_neg hc,
        splitNl_no_nl t (fun d hd => h d (List.mem_cons_of_mem c hd))]

theorem splitNl_append_nl : ∀ (x y : Str), (∀ c ∈ x, c ≠ '\n') →
    splitNl (x ++ '\n' :: y) = x :: splitNl y
  | [], y, _ => by
      rw [List.nil_append]
      simp [splitNl]
  | c :: x', y, h => by
      have hc : c ≠ '\n' := h c (by simp)
      rw [List.cons_append]
      simp only [splitNl, if_neg hc,
        splitNl_append_nl x' y (fun d hd => h d (List.mem_cons_of_mem c hd))]

theorem splitNl_joinSep : ∀ (L : List Str), L ≠ [] →
    (∀ l ∈ L, ∀ c ∈ l, c ≠ '\n') → splitNl (joinSep '\n' L) = L
  | [], h, _ => absurd rfl h
  | [l], _, h => splitNl_no_nl l (h l (by simp))
  | l :: l2 :: ls, _, h => by
      show splitNl (l ++ '\n' :: joinSep '\n' (l2 :: ls)) = l :: l2 :: ls
      rw [splitNl_append_nl l _ (h l (by simp)),
        splitNl_joinSep (l2 :: ls) (by simp)
          (fun x hx c hc => h x (by simp [hx]) c hc)]

theorem mem_joinSep (sep : Char) : ∀ (L : List Str) (c : Char),
    c ∈ joinSep sep L → c = sep ∨ ∃ l ∈ L, c ∈ l
  | [], _, h => absurd h (by simp [joinSep])
  | [l], c, h => Or.inr ⟨l, by simp, h⟩
  | l :: l2 :: ls, c, h => by
      have h' : c ∈ l ++ sep :: joinSep sep (l2 :: ls) := h
      rcases List.mem_append.mp h' with h1 | h1
      · exact Or.inr ⟨l, by simp, h1⟩
      · rcases List.mem_cons.mp h1 with rfl | h2
        · exact Or.inl rfl
        · rcases mem_joinSep sep (l2 :: ls) c h2 with h3 | ⟨x, hx, hcx⟩
          · exact Or.inl h3
          · exact Or.inr ⟨x, by simp [hx], hcx⟩

theorem wrapWalk_nil (w : Nat) (para : List Str) :
    wrapWalk w para [] = flush_paragraph w para := rfl

theorem wrapWalk_cons_nonblank (w : Nat) (para : List Str) (line : Str)
    (rest : List Str) (h : ¬((pyStrip line).isEmpty = true)) :
    wrapWalk w para (line :: rest) = wrapWalk w (para ++ [line]) rest := by
  simp only [wrapWalk, if_neg h]

theorem wrapWalk_cons_blank_ok (w : Nat) (para : List Str) (line : Str)
    (rest : List Str) (fl ws : List Str)
    (h : (pyStrip line).isEmpty = true)
    (hA : flush_paragraph w para = .ok fl)
    (hB : wrapWalk w [] rest = .ok ws) :
    wrapWalk w para (line :: rest) = .ok (fl ++ ([] : Str) :: ws) := by
  simp only [wrapWalk, if_pos h, hA, hB]

theorem wrapWalk_skip_nonblank (w : Nat) :
    ∀ (aL : List Str) (para rest : List Str),
      (∀ l ∈ aL, pyStrip l ≠ []) →
      wrapWalk w para (aL ++ rest) = wrapWalk w (para ++ aL) rest
  | [], para, rest, _ => by simp
  | l :: aT, para, rest, h => by
      rw [List.cons_append,
        wrapWalk_cons_nonblank w para l (aT ++ rest)
          (by simpa [List.isEmpty_iff] using h l (by simp)),
        wrapWalk_skip_nonblank w aT (para ++ [l]) rest
          (fun x hx => h x (by simp [hx]))]
      simp

theorem textwrapWrap_spec (w : Nat) (ind : Str) (text : Str) (hw : w ≠ 0)
    (hind : ∀ c ∈ ind, isPySpace c = true) :
    ∃ lines, textwrapWrap w ind ind text = .ok lines ∧
      (∀ line ∈ lines,
        pyStrip line ≠ [] ∧
          (line.length ≤ w ∨
            ∃ i2 wd, line = i2 ++ wd ∧ (∀ c ∈ i2, isPySpace c = true) ∧
              wd ≠ [] ∧ ∀ c ∈ wd, isPySpace c = false)) ∧
      (lines.map wordsOf).flatten = wordsOf text := by
  obtain ⟨h1, h2⟩ := wrapGo_spec w ind ind hind hind
    ((splitChunks (mungeWhitespace text)).length + 1)
    (splitChunks (mungeWhitespace text)) false (Nat.lt_succ_self _)
    (splitChunks_WF _)
  refine ⟨wrapChunksAll w ind ind (splitChunks (mungeWhitespace text)),
    ?_, h1, ?_⟩
  · show (if w = 0 then Except.error WrapError.invalidWidth
      else Except.ok
        (wrapChunksAll w ind ind (splitChunks (mungeWhitespace text)))) = _
    rw [if_neg hw]
  · exact h2.trans (wordsOf_munge text)

theorem wordsOf_paragraphText (buffer : List Str) :
    wordsOf (joinSep ' ' (buffer.map pyStrip)) = (buffer.map wordsOf).flatten := by
  rw [wordsOf_joinSep ' ' (by decide) (buffer.map pyStrip), List.map_map]
  congr 1
  exact List.map_congr_left (fun l _ => wordsOf_pyStrip l)

theorem flush_paragraph_nonbullet (w : Nat) (first : Str) (rest : List Str)
    (hbul : bulletMatch (first.drop (first.takeWhile isPySpace).length) = none) :
    flush_paragraph w (first :: rest) =
      textwrapWrap w (first.takeWhile isPySpace) (first.takeWhile isPySpace)
        (joinSep ' ' ((first :: rest).map pyStrip)) := by
  unfold flush_paragraph
  simp only [hbul]

theorem flush_paragraph_spec (w : Nat) (first : Str) (rest : List Str)
    (hw : w ≠ 0)
    (hbul : bulletMatch (first.drop (first.takeWhile isPySpace).length) = none) :
    ∃ out, flush_paragraph w (first :: rest) = .ok out ∧
      (∀ line ∈ out,
        pyStrip line ≠ [] ∧
          (line.length ≤ w ∨
            ∃ ind wd, line = ind ++ wd ∧ (∀ c ∈ ind, isPySpace c = true) ∧
              wd ≠ [] ∧ ∀ c ∈ wd, isPySpace c = false)) ∧
      (out.map wordsOf).flatten = ((first :: rest).map wordsOf).flatten := by
  rw [flush_paragraph_nonbullet w first rest hbul]
  obtain ⟨lines, hok, hlines, hwords⟩ :=
    textwrapWrap_spec w (first.takeWhile isPySpace)
      (joinSep ' ' ((first :: rest).map pyStrip)) hw
      (fun c hc => List.mem_takeWhile_imp hc)
  refine ⟨lines, hok, hlines, ?_⟩
  rw [hwords, wordsOf_paragraphText]
/-- C8 (amended).  On an input consisting of two paragraphs of non-blank,
newline- and carriage-return-free lines, separated by exactly one blank
line, with neither paragraph starting with a bullet or numbered-list
marker and a positive width `w`, `_wrap_license_text`'s line stage
succeeds and produces the rewrapped first paragraph, exactly one blank
line, and the rewrapped second paragraph; every produced line is
non-blank and either fits in `w` columns or is a whitespace indent
followed by one unbreakable word (`break_long_words=False`), and each
paragraph's words are preserved in order. -/
theorem wrap_two_paragraphs_structure (w : Nat) (a0 b0 : Str)
    (aT bT : List Str) (hw : w ≠ 0)
    (hnb : ∀ l ∈ (a0 :: aT) ++ b0 :: bT, pyStrip l ≠ [])
    (hnc : ∀ l ∈ (a0 :: aT) ++ b0 :: bT, ∀ c ∈ l, c ≠ '\n' ∧ c ≠ '\r')
    (hba : bulletMatch (a0.drop (a0.takeWhile isPySpace).length) = none)
    (hbb : bulletMatch (b0.drop (b0.takeWhile isPySpace).length) = none) :
    ∃ outA outB,
      wrap_license_lines (joinSep '\n' ((a0 :: aT) ++ ([] : Str) :: b0 :: bT)) w
        = .ok (outA ++ ([] : Str) :: outB) ∧
      outA ≠ [] ∧ outB ≠ [] ∧
      (∀ line ∈ outA ++ outB,
        pyStrip line ≠ [] ∧
          (line.length ≤ w ∨
            ∃ ind wd, line = ind ++ wd ∧ (∀ c ∈ ind, isPySpace c = true) ∧
              wd ≠ [] ∧ ∀ c ∈ wd, isPySpace c = false)) ∧
      (outA.map wordsOf).flatten = ((a0 :: aT).map wordsOf).flatten ∧
      (outB.map wordsOf).flatten = ((b0 :: bT).map wordsOf).flatten := by
  have hnocr : ∀ c ∈ joinSep '\n' ((a0 :: aT) ++ ([] : Str) :: b0 :: bT),
      c ≠ '\r' := by
    intro c hc
    rcases mem_joinSep '\n' _ c hc with rfl | ⟨l, hl, hcl⟩
    · decide
    · rcases List.mem_append.mp hl with hla | hlb
      · exact (hnc l (List.mem_append.mpr (Or.inl hla)) c hcl).2
      · rcases List.mem_cons.mp hlb with rfl | hlb'
        · exact absurd hcl (by simp)
        · exact (hnc l (List.mem_append.mpr (Or.inr hlb')) c hcl).2
  have hsplit :
      splitNl (normCRLF (joinSep '\n' ((a0 :: aT) ++ ([] : Str) :: b0 :: bT)))
        = (a0 :: aT) ++ ([] : Str) :: b0 :: bT := by
    rw [normCRLF_no_cr _ hnocr]
    refine splitNl_joinSep _ (by simp) ?_
    intro l hl c hc
    rcases List.mem_append.mp hl with hla | hlb
    · exact (hnc l (List.mem_append.mpr (Or.inl hla)) c hc).1
    · rcases List.mem_cons.mp hlb with rfl | hlb'
      · exact absurd hc (by simp)
      · exact (hnc l (List.mem_append.mpr (Or.inr hlb')) c hc).1
  obtain ⟨outA, hokA, hlinesA, hwordsA⟩ := flush_paragraph_spec w a0 aT hw hba
  obtain ⟨outB, hokB, hlinesB, hwordsB⟩ := flush_paragraph_spec w b0 bT hw hbb
  have hnbA : ∀ l ∈ a0 :: aT, pyStrip l ≠ [] :=
    fun l hl => hnb l (List.mem_append.mpr (Or.inl hl))
  have hnbB : ∀ l ∈ b0 :: bT, pyStrip l ≠ [] :=
    fun l hl => hnb l (List.mem_append.mpr (Or.inr hl))
  have hwalkB : wrapWalk w [] (b0 :: bT) = .ok outB := by
    have h1 := wrapWalk_skip_nonblank w (b0 :: bT) [] [] hnbB
    rw [List.append_nil, List.nil_append] at h1
    rw [h1, wrapWalk_nil]
    exact hokB
  have hwalk : wrapWalk w [] ((a0 :: aT) ++ ([] : Str) :: b0 :: bT)
      = .ok (outA ++ ([] : Str) :: outB) := by
    rw [wrapWalk_skip_nonblank w (a0 :: aT) [] (([] : Str) :: b0 :: bT) hnbA,
      List.nil_append]
    exact wrapWalk_cons_blank_ok w (a0 :: aT) ([] : Str) (b0 :: bT) outA outB
      rfl hokA hwalkB
  have houtAne : outA ≠ [] := by
    intro h0
    have hw0 : wordsOf a0 ≠ [] := by
      rw [Ne, wordsOf_eq_nil_iff]
      intro hall
      exact hnbA a0 (by simp) ((pyStrip_eq_nil_iff a0).mpr hall)
    rw [h0] at hwordsA
    simp only [List.map_nil, List.flatten_nil, List.map_cons,
      List.flatten_cons] at hwordsA
    exact hw0 (List.append_eq_nil.mp hwordsA.symm).1
  have houtBne : outB ≠ [] := by
    intro h0
    have hw0 : wordsOf b0 ≠ [] := by
      rw [Ne, wordsOf_eq_nil_iff]
      intro hall
      exact hnbB b0 (by simp) ((pyStrip_eq_nil_iff b0).mpr hall)
    rw [h0] at hwordsB
    simp only [List.map_nil, List.flatten_nil, List.map_cons,
      List.flatten_cons] at hwordsB
    exact hw0 (List.append_eq_nil.mp hwordsB.symm).1
  refine ⟨outA, outB, ?_, houtAne, houtBne, ?_, hwordsA, hwordsB⟩
  · show wrapWalk w []
        (splitNl (normCRLF
          (joinSep '\n' ((a0 :: aT) ++ ([] : Str) :: b0 :: bT))))
      = Except.ok (outA ++ ([] : Str) :: outB)
    rw [hsplit]
    exact hwalk
  · intro line hl
    rcases List.mem_append.mp hl with h | h
    · exact hlinesA line h
    · exact hlinesB line h
/-- Witness for the amended C8 theorem at a concrete two-paragraph
input. -/
theorem wrap_two_paragraphs_structure_witness :
    ∃ outA outB,
      wrap_license_lines
          (joinSep '\n' (("ab".data :: ([] : List Str)) ++
            ([] : Str) :: "cd".data :: ([] : List Str))) 7
        = .ok (outA ++ ([] : Str) :: outB) ∧
      outA ≠ [] ∧ outB ≠ [] ∧
      (∀ line ∈ outA ++ outB,
        pyStrip line ≠ [] ∧
          (line.length ≤ 7 ∨
            ∃ ind wd, line = ind ++ wd ∧ (∀ c ∈ ind, isPySpace c = true) ∧
              wd ≠ [] ∧ ∀ c ∈ wd, isPySpace c = false)) ∧
      (outA.map wordsOf).flatten
        = (("ab".data :: ([] : List Str)).map wordsOf).flatten ∧
      (outB.map wordsOf).flatten
        = (("cd".data :: ([] : List Str)).map wordsOf).flatten :=
  wrap_two_paragraphs_structure 7 "ab".data "cd".data [] []
    (by decide) (by decide) (by decide) (by decide) (by decide)
